import Mathlib

/-!
Shallow embedding of the `CircularList` container from `src/Container.h`
(namespace `stl_containers`): a circular doubly-linked list with a sentinel
node (`temp_node_`).  Pointers are modelled as `Option Nat` (`none` is
`nullptr`), the C++ heap as a function from addresses to optional nodes, and
`std::out_of_range` as the `CErr.outOfRange` error of an `Except` monad.
Undefined behaviour (dereferencing a null or dangling pointer) is the
distinct error `CErr.ub`.  Field and operation names follow the source.
-/

namespace stl_containers

/-- A machine address.  The allocator hands out fresh addresses in order. -/
abbrev Addr := Nat

/-- A C++ pointer: either `nullptr` (`none`) or an address. -/
abbrev Ptr := Option Addr

/-- `CircularList<T>::Node`: a stored value plus `next`/`prev` links. -/
structure Node (T : Type) where
  value : T
  next : Ptr
  prev : Ptr

/-- Outcomes of operations that can fail: a thrown `std::out_of_range`
with its message, or undefined behaviour (null/dangling dereference). -/
inductive CErr where
  | outOfRange (msg : String)
  | ub
deriving DecidableEq

/-- The heap: partial map from addresses to nodes, plus the next fresh
address the allocator will return. -/
structure Heap (T : Type) where
  mem : Addr → Option (Node T)
  nextAddr : Addr

/-- Dereference a pointer: UB on `nullptr` and on dangling addresses. -/
def Heap.get (h : Heap T) (p : Ptr) : Except CErr (Node T) :=
  match p with
  | none => .error .ub
  | some a =>
    match h.mem a with
    | none => .error .ub
    | some n => .ok n

/-- Overwrite the node stored at address `a`. -/
def Heap.set (h : Heap T) (a : Addr) (n : Node T) : Heap T :=
  ⟨fun x => if x = a then some n else h.mem x, h.nextAddr⟩

/-- Read-modify-write of the node a pointer designates (one C++ field
assignment such as `p->next = q`). -/
def Heap.write (h : Heap T) (p : Ptr) (f : Node T → Node T) :
    Except CErr (Heap T) :=
  match p with
  | none => .error .ub
  | some a =>
    match h.mem a with
    | none => .error .ub
    | some n => .ok (h.set a (f n))

/-- `new Node(...)`: returns the fresh address and the extended heap. -/
def Heap.alloc (h : Heap T) (n : Node T) : Addr × Heap T :=
  (h.nextAddr, ⟨fun x => if x = h.nextAddr then some n else h.mem x,
    h.nextAddr + 1⟩)

/-- `delete`: remove the node stored at address `a`. -/
def Heap.free (h : Heap T) (a : Addr) : Heap T :=
  ⟨fun x => if x = a then none else h.mem x, h.nextAddr⟩

/-- `CircularList<T>::iterator`: current node pointer plus the sentinel
pointer (`temp_node_`).  A default-constructed iterator has both null. -/
structure Iter where
  current_ : Ptr
  temp_node_ : Ptr
deriving DecidableEq

/-- `operator==` on iterators: compares only the current node pointers. -/
def Iter.iterEq (a b : Iter) : Bool := a.current_ == b.current_

/-- `operator*`: throws out-of-range at the sentinel, else loads the value. -/
def Iter.deref (h : Heap T) (it : Iter) : Except CErr T :=
  if it.current_ = it.temp_node_ then
    .error (.outOfRange "Cannot dereference end iterator")
  else do
    let n ← h.get it.current_
    pure n.value

/-- `operator->`: same check as `operator*` with its own message; modelled
as returning the value the resulting pointer gives access to. -/
def Iter.arrow (h : Heap T) (it : Iter) : Except CErr T :=
  if it.current_ = it.temp_node_ then
    .error (.outOfRange "Cannot access end iterator")
  else do
    let n ← h.get it.current_
    pure n.value

/-- Pre-increment: throws at the sentinel, else steps to `current_->next`. -/
def Iter.inc (h : Heap T) (it : Iter) : Except CErr Iter :=
  if it.current_ = it.temp_node_ then
    .error (.outOfRange "Cannot increment end iterator")
  else do
    let n ← h.get it.current_
    pure ⟨n.next, it.temp_node_⟩

/-- Pre-decrement: steps to `current_->prev`; if that is the sentinel,
steps once more (`prev->prev`).  No range check, matching the source. -/
def Iter.dec (h : Heap T) (it : Iter) : Except CErr Iter := do
  let n ← h.get it.current_
  if n.prev = it.temp_node_ then do
    let m ← h.get n.prev
    pure ⟨m.prev, it.temp_node_⟩
  else
    pure ⟨n.prev, it.temp_node_⟩

/-- `n` applications of pre-decrement. -/
def Iter.decN (h : Heap T) : Nat → Iter → Except CErr Iter
  | 0, it => .ok it
  | n + 1, it => do
    let it' ← Iter.dec h it
    Iter.decN h n it'

/-- The container: its private heap, the sentinel pointer `temp_node_`
and the element counter `size_`. -/
structure CircularList (T : Type) where
  heap : Heap T
  temp_node_ : Ptr
  size_ : Nat

namespace CircularList

variable {T : Type}

/-- Default constructor: allocate the sentinel holding `T()` and ring it
to itself; `size_ = 0`. -/
def mkEmpty [Inhabited T] : CircularList T :=
  let h0 : Heap T := ⟨fun _ => none, 0⟩
  let (a, h1) := h0.alloc ⟨default, none, none⟩
  let h2 := h1.set a ⟨default, some a, some a⟩
  ⟨h2, some a, 0⟩

/-- `size()`. -/
def size (L : CircularList T) : Nat := L.size_

/-- `empty()`: `size_ == 0`. -/
def empty (L : CircularList T) : Bool := L.size_ == 0

/-- `begin()`: iterator at `temp_node_->next` (reads the sentinel node). -/
def begin (L : CircularList T) : Except CErr Iter := do
  let s ← L.heap.get L.temp_node_
  pure ⟨s.next, L.temp_node_⟩

/-- `end()`: iterator at the sentinel itself. -/
def endIter (L : CircularList T) : Iter := ⟨L.temp_node_, L.temp_node_⟩

/-- `emplace(pos, v)`: allocate a node with `next = target` and
`prev = target->prev`, then `target->prev->next = newNode` and
`target->prev = newNode`; increment `size_`; return an iterator to the
new node.  The heap writes happen in source order. -/
def emplace (L : CircularList T) (pos : Iter) (v : T) :
    Except CErr (Iter × CircularList T) := do
  let target := pos.current_
  let tnode ← L.heap.get target
  let (a, h1) := L.heap.alloc ⟨v, target, tnode.prev⟩
  let h2 ← h1.write tnode.prev (fun n => { n with next := some a })
  let h3 ← h2.write target (fun n => { n with prev := some a })
  pure (⟨some a, L.temp_node_⟩, ⟨h3, L.temp_node_, L.size_ + 1⟩)

/-- `insert(pos, value)`: thin wrapper over `emplace`. -/
def insert (L : CircularList T) (pos : Iter) (v : T) :
    Except CErr (Iter × CircularList T) :=
  L.emplace pos v

/-- `push_back(value)` = `insert(end(), value)`. -/
def push_back (L : CircularList T) (v : T) : Except CErr (CircularList T) := do
  let (_, L') ← L.insert L.endIter v
  pure L'

/-- `push_front(value)` = `insert(begin(), value)`. -/
def push_front (L : CircularList T) (v : T) : Except CErr (CircularList T) := do
  let b ← L.begin
  let (_, L') ← L.insert b v
  pure L'

/-- `erase(pos)`: throws on an empty list, then on the sentinel position;
otherwise unlinks the target (two field assignments, each reading the
heap state left by the previous one), frees it, decrements `size_` and
returns an iterator to `target->next`. -/
def erase (L : CircularList T) (pos : Iter) :
    Except CErr (Iter × CircularList T) :=
  if L.size_ = 0 then .error (.outOfRange "Cannot erase from empty list")
  else
    let target := pos.current_
    if target = L.temp_node_ then .error (.outOfRange "Cannot erase end iterator")
    else do
      let tnode ← L.heap.get target
      let h1 ← L.heap.write tnode.prev (fun n => { n with next := tnode.next })
      let tnode1 ← h1.get target
      let h2 ← h1.write tnode1.next (fun n => { n with prev := tnode1.prev })
      let tnode2 ← h2.get target
      let nextIt : Iter := ⟨tnode2.next, L.temp_node_⟩
      match target with
      | none => .error .ub
      | some ta => pure (nextIt, ⟨h2.free ta, L.temp_node_, L.size_ - 1⟩)

/-- `pop_front()` = `erase(begin())`. -/
def pop_front (L : CircularList T) : Except CErr (CircularList T) := do
  let b ← L.begin
  let (_, L') ← L.erase b
  pure L'

/-- `pop_back()` = `erase(--end())`. -/
def pop_back (L : CircularList T) : Except CErr (CircularList T) := do
  let e ← Iter.dec L.heap L.endIter
  let (_, L') ← L.erase e
  pure L'

/-- The loop of `clear()`, with fuel (the loop runs `size_` times). -/
def clearAux : Nat → CircularList T → Except CErr (CircularList T)
  | 0, L => if L.size_ = 0 then .ok L else .error .ub
  | fuel + 1, L =>
    if L.size_ = 0 then .ok L
    else do
      let L' ← L.pop_front
      clearAux fuel L'

/-- `clear()`: `while (!empty()) pop_front();`. -/
def clear (L : CircularList T) : Except CErr (CircularList T) :=
  clearAux L.size_ L

/-- `front()`: throws when empty, else the value at `temp_node_->next`. -/
def front (L : CircularList T) : Except CErr T :=
  if L.size_ = 0 then .error (.outOfRange "List is empty")
  else do
    let s ← L.heap.get L.temp_node_
    let n ← L.heap.get s.next
    pure n.value

/-- `back()`: throws when empty, else the value at `temp_node_->prev`. -/
def back (L : CircularList T) : Except CErr T :=
  if L.size_ = 0 then .error (.outOfRange "List is empty")
  else do
    let s ← L.heap.get L.temp_node_
    let n ← L.heap.get s.prev
    pure n.value

/-- The initializer-list constructor: default-construct, then `push_back`
each element in order. -/
def fromListE [Inhabited T] (xs : List T) : Except CErr (CircularList T) :=
  xs.foldlM push_back mkEmpty

/-- Forward iteration collecting values: `for (it = start; it != end(); ++it)`
with fuel bounding the number of steps. -/
def collectFwd (L : CircularList T) : Nat → Iter → Except CErr (List T)
  | 0, it => if it.current_ = L.temp_node_ then .ok [] else .error .ub
  | fuel + 1, it =>
    if it.current_ = L.temp_node_ then .ok []
    else do
      let v ← Iter.deref L.heap it
      let it' ← Iter.inc L.heap it
      let rest ← L.collectFwd fuel it'
      pure (v :: rest)

/-- Reverse iteration collecting values, via `std::reverse_iterator`
semantics: a reverse iterator holds a base iterator; `*rit` decrements a
copy of the base and dereferences it, `++rit` decrements the base; the
loop stops when the base's current pointer reaches `stop` (the base of
`rend()`, i.e. `begin()`). -/
def collectRev (L : CircularList T) (stop : Ptr) :
    Nat → Iter → Except CErr (List T)
  | 0, base => if base.current_ = stop then .ok [] else .error .ub
  | fuel + 1, base =>
    if base.current_ = stop then .ok []
    else do
      let it ← Iter.dec L.heap base
      let v ← Iter.deref L.heap it
      let rest ← L.collectRev stop fuel it
      pure (v :: rest)

/-- The copy constructor: default-construct, then `push_back` every
element of `other` in forward-iteration order. -/
def copy [Inhabited T] (other : CircularList T) :
    Except CErr (CircularList T) := do
  let b ← other.begin
  let vs ← other.collectFwd other.size_ b
  vs.foldlM push_back mkEmpty

end CircularList

/-! ## The ring invariant -/

/-- The `next` link stored at address `a`, if `a` is allocated. -/
def nextMap (h : Heap T) (a : Addr) : Option Ptr := (h.mem a).map Node.next

/-- The `prev` link stored at address `a`, if `a` is allocated. -/
def prevMap (h : Heap T) (a : Addr) : Option Ptr := (h.mem a).map Node.prev

/-- The value stored at address `a`, if `a` is allocated. -/
def valMap (h : Heap T) (a : Addr) : Option T := (h.mem a).map Node.value

/-- `a` and `b` are properly doubly linked: `a->next == b` and
`b->prev == a` (both nodes allocated). -/
def linked (h : Heap T) (a b : Addr) : Prop :=
  nextMap h a = some (some b) ∧ prevMap h b = some (some a)

instance (h : Heap T) (a b : Addr) : Decidable (linked h a b) :=
  inferInstanceAs (Decidable
    (nextMap h a = some (some b) ∧ prevMap h b = some (some a)))

/-- Executable check that consecutive elements of `l` are `linked`. -/
def chainB (h : Heap T) : List Addr → Bool
  | [] => true
  | [_] => true
  | a :: b :: l => decide (linked h a b) && chainB h (b :: l)

theorem chainB_iff (h : Heap T) :
    ∀ l : List Addr, chainB h l = true ↔ List.Chain' (linked h) l
  | [] => by simp [chainB]
  | [a] => by simp [chainB]
  | a :: b :: l => by
    rw [List.chain'_cons, ← chainB_iff h (b :: l)]
    simp [chainB]

instance (h : Heap T) (l : List Addr) : Decidable (List.Chain' (linked h) l) :=
  decidable_of_iff (chainB h l = true) (chainB_iff h l)

/-- The addresses `as` hold exactly the values `xs`, in order. -/
def hasValues (h : Heap T) (as : List Addr) (xs : List T) : Prop :=
  as.map (valMap h) = xs.map some

instance [DecidableEq T] (h : Heap T) (as : List Addr) (xs : List T) :
    Decidable (hasValues h as xs) :=
  inferInstanceAs (Decidable (as.map (valMap h) = xs.map some))

/-- The representation invariant of `CircularList`: `t` is the sentinel's
address, `as` the addresses of the element nodes in forward order, `xs`
their values.  The ring `t :: as` is circularly doubly linked (expressed
as a `Chain'` of `linked` pairs over `t :: as ++ [t]`), the addresses are
distinct and below the allocator's fresh counter, and `size_` is the
number of element nodes. -/
def ringSpec (L : CircularList T) (t : Addr) (as : List Addr)
    (xs : List T) : Prop :=
  L.temp_node_ = some t ∧
  L.size_ = as.length ∧
  (t :: as).Nodup ∧
  (∀ a ∈ t :: as, a < L.heap.nextAddr) ∧
  List.Chain' (linked L.heap) ((t :: as) ++ [t]) ∧
  hasValues L.heap as xs

instance [DecidableEq T] (L : CircularList T) (t : Addr) (as : List Addr)
    (xs : List T) : Decidable (ringSpec L t as xs) :=
  inferInstanceAs (Decidable
    (L.temp_node_ = some t ∧
     L.size_ = as.length ∧
     (t :: as).Nodup ∧
     (∀ a ∈ t :: as, a < L.heap.nextAddr) ∧
     List.Chain' (linked L.heap) ((t :: as) ++ [t]) ∧
     hasValues L.heap as xs))

/-- A list satisfies the ring invariant for some decomposition. -/
def ringInv (L : CircularList T) : Prop :=
  ∃ t as xs, ringSpec L t as xs

/-- A concrete three-element list `{5, 6, 7}` (sentinel at address `0`,
element nodes at `1`, `2`, `3`), used to evaluate the theorems. -/
def sample3 : CircularList Nat :=
  ((CircularList.fromListE [5, 6, 7]).toOption).getD CircularList.mkEmpty

/-- A concrete empty list. -/
def sample0 : CircularList Nat := CircularList.mkEmpty

/-! ## Reduction lemmas for the embedding's monad and heap -/

theorem bindOk (a : α) (f : α → Except CErr β) :
    (Except.ok a : Except CErr α) >>= f = f a := rfl

theorem bindErr (e : CErr) (f : α → Except CErr β) :
    (Except.error e : Except CErr α) >>= f = .error e := rfl

theorem pureOk (a : α) : (pure a : Except CErr α) = .ok a := rfl

theorem Heap.get_some (h : Heap T) {a : Addr} {n : Node T}
    (hm : h.mem a = some n) : h.get (some a) = .ok n := by
  simp [Heap.get, hm]

theorem Heap.write_some (h : Heap T) {a : Addr} {n : Node T}
    (f : Node T → Node T) (hm : h.mem a = some n) :
    h.write (some a) f = .ok (h.set a (f n)) := by
  simp [Heap.write, hm]

theorem Heap.mem_set (h : Heap T) (a : Addr) (n : Node T) (b : Addr) :
    (h.set a n).mem b = if b = a then some n else h.mem b := rfl

theorem Heap.nextAddr_set (h : Heap T) (a : Addr) (n : Node T) :
    (h.set a n).nextAddr = h.nextAddr := rfl

theorem Heap.mem_free (h : Heap T) (a b : Addr) :
    (h.free a).mem b = if b = a then none else h.mem b := rfl

theorem Heap.nextAddr_free (h : Heap T) (a : Addr) :
    (h.free a).nextAddr = h.nextAddr := rfl

theorem nextMap_set (h : Heap T) (a : Addr) (n : Node T) (b : Addr) :
    nextMap (h.set a n) b = if b = a then some n.next else nextMap h b := by
  by_cases hb : b = a <;> simp [nextMap, Heap.set, hb]

theorem prevMap_set (h : Heap T) (a : Addr) (n : Node T) (b : Addr) :
    prevMap (h.set a n) b = if b = a then some n.prev else prevMap h b := by
  by_cases hb : b = a <;> simp [prevMap, Heap.set, hb]

theorem valMap_set (h : Heap T) (a : Addr) (n : Node T) (b : Addr) :
    valMap (h.set a n) b = if b = a then some n.value else valMap h b := by
  by_cases hb : b = a <;> simp [valMap, Heap.set, hb]

theorem nextMap_free (h : Heap T) (a b : Addr) :
    nextMap (h.free a) b = if b = a then none else nextMap h b := by
  by_cases hb : b = a <;> simp [nextMap, Heap.free, hb]

theorem prevMap_free (h : Heap T) (a b : Addr) :
    prevMap (h.free a) b = if b = a then none else prevMap h b := by
  by_cases hb : b = a <;> simp [prevMap, Heap.free, hb]

theorem valMap_free (h : Heap T) (a b : Addr) :
    valMap (h.free a) b = if b = a then none else valMap h b := by
  by_cases hb : b = a <;> simp [valMap, Heap.free, hb]

/-! ## Chain decomposition and monotonicity -/

theorem chain'_join {α : Type} {R : α → α → Prop} :
    ∀ (u : List α) (t c : α) (l₂ : List α),
      List.Chain' R ((t :: u) ++ c :: l₂) ↔
        List.Chain' R (t :: u) ∧ R (u.getLastD t) c ∧ List.Chain' R (c :: l₂)
  | [], t, c, l₂ => by
    simp [List.chain'_cons]
  | b :: u, t, c, l₂ => by
    have ih := chain'_join (R := R) u b c l₂
    constructor
    · intro hch
      rw [List.cons_append, List.cons_append, List.chain'_cons] at hch
      rcases hch with ⟨htb, hch⟩
      rw [← List.cons_append] at hch
      rcases ih.mp hch with ⟨h1, h2, h3⟩
      refine ⟨List.chain'_cons.mpr ⟨htb, h1⟩, ?_, h3⟩
      rw [List.getLastD_cons]
      exact h2
    · rintro ⟨h1, h2, h3⟩
      rcases List.chain'_cons.mp h1 with ⟨htb, h1'⟩
      rw [List.cons_append, List.cons_append, List.chain'_cons]
      refine ⟨htb, ?_⟩
      rw [← List.cons_append]
      rw [List.getLastD_cons] at h2
      exact ih.mpr ⟨h1', h2, h3⟩

theorem linked_mono {h h' : Heap T} {a b : Addr}
    (hn : nextMap h' a = nextMap h a) (hp : prevMap h' b = prevMap h b) :
    linked h a b → linked h' a b := by
  rintro ⟨h1, h2⟩
  exact ⟨hn.trans h1, hp.trans h2⟩

theorem chain'_linked_mono {h h' : Heap T} :
    ∀ {l : List Addr},
      (∀ x ∈ l.dropLast, nextMap h' x = nextMap h x) →
      (∀ y ∈ l.tail, prevMap h' y = prevMap h y) →
      List.Chain' (linked h) l → List.Chain' (linked h') l
  | [], _, _, _ => by simp
  | [a], _, _, _ => by simp
  | a :: b :: l, hn, hp, hch => by
    rcases List.chain'_cons.mp hch with ⟨hab, hch'⟩
    refine List.chain'_cons.mpr ⟨?_, ?_⟩
    · refine linked_mono ?_ ?_ hab
      · exact hn a (by simp)
      · exact hp b (by simp)
    · refine chain'_linked_mono (fun x hx => hn x ?_) (fun y hy => hp y ?_) hch'
      · rcases l.eq_nil_or_concat with rfl | ⟨l', z, rfl⟩
        · simp at hx
        · simp at hx ⊢
          tauto
      · simp at hy ⊢
        tauto

theorem hasValues_mono {h h' : Heap T} {as : List Addr} {xs : List T}
    (hv : ∀ a ∈ as, valMap h' a = valMap h a) :
    hasValues h as xs → hasValues h' as xs := by
  unfold hasValues
  intro he
  rw [List.map_congr_left hv]
  exact he

theorem hasValues_cons {h : Heap T} {a : Addr} {as : List Addr} {x : T}
    {xs : List T} :
    hasValues h (a :: as) (x :: xs) ↔ valMap h a = some x ∧ hasValues h as xs := by
  simp [hasValues]

theorem hasValues_append {h : Heap T} {u v : List Addr} {xu xv : List T} :
    hasValues h u xu → hasValues h v xv → hasValues h (u ++ v) (xu ++ xv) := by
  unfold hasValues
  intro h1 h2
  simp [h1, h2]

theorem hasValues_length {h : Heap T} {as : List Addr} {xs : List T}
    (hv : hasValues h as xs) : as.length = xs.length := by
  have := congrArg List.length hv
  simpa using this

theorem hasValues_split {h : Heap T} {u v : List Addr} {xu xv : List T}
    (hlen : u.length = xu.length) (hv : hasValues h (u ++ v) (xu ++ xv)) :
    hasValues h u xu ∧ hasValues h v xv := by
  unfold hasValues at hv ⊢
  rw [List.map_append, List.map_append] at hv
  have := List.append_inj hv (by simp [hlen])
  exact ⟨this.1, this.2⟩

/-! ## Ring facts -/

theorem linked_mem_next {h : Heap T} {a b : Addr} (hl : linked h a b) :
    ∃ n, h.mem a = some n ∧ n.next = some b := by
  rcases hl with ⟨h1, -⟩
  unfold nextMap at h1
  cases hm : h.mem a with
  | none => rw [hm] at h1; simp at h1
  | some n =>
    rw [hm] at h1
    simp at h1
    exact ⟨n, rfl, h1⟩

theorem linked_mem_prev {h : Heap T} {a b : Addr} (hl : linked h a b) :
    ∃ m, h.mem b = some m ∧ m.prev = some a := by
  rcases hl with ⟨-, h2⟩
  unfold prevMap at h2
  cases hm : h.mem b with
  | none => rw [hm] at h2; simp at h2
  | some m =>
    rw [hm] at h2
    simp at h2
    exact ⟨m, rfl, h2⟩

theorem head?_concat {α : Type} (v : List α) (t : α) :
    (v ++ [t]).head? = some (v.headD t) := by
  cases v <;> simp

theorem getLastD_mem {α : Type} (u : List α) (t : α) :
    u.getLastD t ∈ t :: u := by
  induction u generalizing t with
  | nil => simp
  | cons b u ih =>
    rw [List.getLastD_cons]
    have := ih b
    simp at this ⊢
    tauto

theorem headD_mem {α : Type} (v : List α) (t : α) :
    v.headD t ∈ t :: v := by
  cases v <;> simp

theorem getLast_cons_getLastD {α : Type} :
    ∀ (u : List α) (t : α), (t :: u).getLast (by simp) = u.getLastD t
  | [], t => rfl
  | b :: u, t => by
    rw [List.getLast_cons (by simp), getLast_cons_getLastD u b,
      List.getLastD_cons]

theorem getLastD_not_mem_dropLast {α : Type} {u : List α} {t : α}
    (hnd : (t :: u).Nodup) : u.getLastD t ∉ (t :: u).dropLast := by
  have hsplit : t :: u = (t :: u).dropLast ++ [u.getLastD t] := by
    rw [← getLast_cons_getLastD u t]
    exact (List.dropLast_append_getLast (by simp)).symm
  rw [hsplit] at hnd
  have := List.disjoint_of_nodup_append hnd
  intro hmem
  exact this hmem (by simp)

theorem chainSplit {h : Heap T} {t : Addr} {A u v : List Addr}
    (hch : List.Chain' (linked h) ((t :: A) ++ [t])) (hsplit : A = u ++ v) :
    List.Chain' (linked h) (t :: u) ∧
    linked h (u.getLastD t) (v.headD t) ∧
    List.Chain' (linked h) (v ++ [t]) := by
  subst hsplit
  cases v with
  | nil =>
    have he : (t :: (u ++ ([] : List Addr))) ++ [t] = (t :: u) ++ t :: [] := by
      simp
    rw [he] at hch
    have := (chain'_join u t t []).mp hch
    exact ⟨this.1, this.2.1, by simp⟩
  | cons c v' =>
    have he : (t :: (u ++ c :: v')) ++ [t] = (t :: u) ++ c :: (v' ++ [t]) := by
      simp
    rw [he] at hch
    have := (chain'_join u t c (v' ++ [t])).mp hch
    exact ⟨this.1, this.2.1, this.2.2⟩

theorem ring_split {L : CircularList T} {t : Addr} {as u v : List Addr}
    {xs : List T} (hr : ringSpec L t as xs) (hsplit : as = u ++ v) :
    List.Chain' (linked L.heap) (t :: u) ∧
    linked L.heap (u.getLastD t) (v.headD t) ∧
    List.Chain' (linked L.heap) (v ++ [t]) :=
  chainSplit hr.2.2.2.2.1 hsplit

theorem ring_join {h : Heap T} {t : Addr} {u v : List Addr}
    (h1 : List.Chain' (linked h) (t :: u))
    (h2 : linked h (u.getLastD t) (v.headD t))
    (h3 : List.Chain' (linked h) (v ++ [t])) :
    List.Chain' (linked h) ((t :: (u ++ v)) ++ [t]) := by
  cases v with
  | nil =>
    have he : (t :: (u ++ ([] : List Addr))) ++ [t] = (t :: u) ++ t :: [] := by
      simp
    rw [he]
    exact (chain'_join u t t []).mpr ⟨h1, h2, by simp⟩
  | cons c v' =>
    have he : (t :: (u ++ c :: v')) ++ [t] = (t :: u) ++ c :: (v' ++ [t]) := by
      simp
    rw [he]
    exact (chain'_join u t c (v' ++ [t])).mpr ⟨h1, h2, h3⟩

theorem Heap.alloc_eq (h : Heap T) (n : Node T) :
    h.alloc n = (h.nextAddr,
      ⟨fun x => if x = h.nextAddr then some n else h.mem x, h.nextAddr + 1⟩) :=
  rfl

theorem Heap.mem_alloc (h : Heap T) (n : Node T) (b : Addr) :
    (h.alloc n).2.mem b = if b = h.nextAddr then some n else h.mem b := rfl

/-- Computation of `emplace` at a position `c` whose node is allocated, with
allocated predecessor `p0`, both distinct from the fresh address. -/
theorem emplace_eq {L : CircularList T} {pos : Iter} {c p0 : Addr}
    {nc np0 : Node T} (x : T)
    (hpos : pos.current_ = some c)
    (hmc : L.heap.mem c = some nc) (hprev : nc.prev = some p0)
    (hmp0 : L.heap.mem p0 = some np0)
    (hfp0 : p0 ≠ L.heap.nextAddr) (hfc : c ≠ L.heap.nextAddr) :
    L.emplace pos x = .ok (⟨some L.heap.nextAddr, L.temp_node_⟩,
      ⟨(((L.heap.alloc ⟨x, some c, some p0⟩).2.set p0
          { np0 with next := some L.heap.nextAddr }).set c
          { (if c = p0 then { np0 with next := some L.heap.nextAddr } else nc)
            with prev := some L.heap.nextAddr }),
        L.temp_node_, L.size_ + 1⟩) := by
  have hm1 : (L.heap.alloc ⟨x, some c, some p0⟩).2.mem p0 = some np0 := by
    rw [Heap.mem_alloc, if_neg hfp0, hmp0]
  have hm2 : ((L.heap.alloc ⟨x, some c, some p0⟩).2.set p0
      { np0 with next := some L.heap.nextAddr }).mem c =
      some (if c = p0 then { np0 with next := some L.heap.nextAddr } else nc) := by
    rw [Heap.mem_set]
    by_cases hcp : c = p0
    · rw [if_pos hcp, if_pos hcp]
    · rw [if_neg hcp, if_neg hcp, Heap.mem_alloc, if_neg hfc, hmc]
  unfold CircularList.emplace
  rw [hpos]
  dsimp only
  rw [Heap.get_some _ hmc, bindOk, hprev, Heap.alloc_eq]
  show (((L.heap.alloc ⟨x, some c, some p0⟩).2.write (some p0)
      (fun n => { n with next := some L.heap.nextAddr })) >>= _) = _
  rw [Heap.write_some _ _ hm1, bindOk, Heap.write_some _ _ hm2, bindOk]
  rfl

theorem nextMap_alloc (h : Heap T) (n : Node T) (b : Addr) :
    nextMap (h.alloc n).2 b =
      if b = h.nextAddr then some n.next else nextMap h b := by
  by_cases hb : b = h.nextAddr <;> simp [nextMap, Heap.mem_alloc, hb]

theorem prevMap_alloc (h : Heap T) (n : Node T) (b : Addr) :
    prevMap (h.alloc n).2 b =
      if b = h.nextAddr then some n.prev else prevMap h b := by
  by_cases hb : b = h.nextAddr <;> simp [prevMap, Heap.mem_alloc, hb]

theorem valMap_alloc (h : Heap T) (n : Node T) (b : Addr) :
    valMap (h.alloc n).2 b =
      if b = h.nextAddr then some n.value else valMap h b := by
  by_cases hb : b = h.nextAddr <;> simp [valMap, Heap.mem_alloc, hb]

/-- `emplace` at any valid position (`pos` immediately before the `v`-suffix
of the element ring, sentinel included): it succeeds, inserts a freshly
allocated node exactly there, preserves the ring invariant, increments
`size_`, leaves every node other than the two neighbours untouched, and the
returned iterator designates the new node, which holds the new value. -/
theorem emplace_ok {L : CircularList T} {t : Addr} {as u v : List Addr}
    {xs xu xv : List T} {pos : Iter} (x : T)
    (hr : ringSpec L t as xs) (hsplit : as = u ++ v) (hxsplit : xs = xu ++ xv)
    (hlen : u.length = xu.length) (hpos : pos.current_ = some (v.headD t)) :
    ∃ L' : CircularList T,
      L.emplace pos x = .ok (⟨some L.heap.nextAddr, some t⟩, L') ∧
      ringSpec L' t (u ++ L.heap.nextAddr :: v) (xu ++ x :: xv) ∧
      L'.size_ = L.size_ + 1 ∧
      L'.heap.nextAddr = L.heap.nextAddr + 1 ∧
      L'.temp_node_ = some t ∧
      (∀ b : Addr, b ≠ u.getLastD t → b ≠ v.headD t → b ≠ L.heap.nextAddr →
        L'.heap.mem b = L.heap.mem b) ∧
      valMap L'.heap L.heap.nextAddr = some x := by
  subst hsplit hxsplit
  obtain ⟨htemp, hsize, hnd, hbound, hch, hval⟩ := hr
  obtain ⟨hchu, hlink, hchv⟩ :=
    ring_split ⟨htemp, hsize, hnd, hbound, hch, hval⟩ rfl
  generalize hp0g : u.getLastD t = p0 at hlink ⊢
  generalize hcg : v.headD t = c at hlink hpos ⊢
  obtain ⟨nc, hmc, hncprev⟩ := linked_mem_prev hlink
  obtain ⟨np0, hmp0, hnp0next⟩ := linked_mem_next hlink
  -- nodup bookkeeping
  have hndtail : (u ++ v).Nodup := (List.nodup_cons.mp hnd).2
  have htnuv : t ∉ u ++ v := (List.nodup_cons.mp hnd).1
  have htnu : t ∉ u := fun hmem => htnuv (by simp [hmem])
  have htnv : t ∉ v := fun hmem => htnuv (by simp [hmem])
  have hdisj : List.Disjoint u v := List.disjoint_of_nodup_append hndtail
  have hndtu : (t :: u).Nodup :=
    List.Nodup.sublist
      (List.Sublist.cons₂ t (List.sublist_append_left u v)) hnd
  have hcmem' : c ∈ t :: v := hcg ▸ headD_mem v t
  have hp0mem' : p0 ∈ t :: u := hp0g ▸ getLastD_mem u t
  have hcmem : c ∈ t :: (u ++ v) := by
    rcases List.mem_cons.mp hcmem' with h | h
    · rw [h]; simp
    · simp [h]
  have hp0mem : p0 ∈ t :: (u ++ v) := by
    rcases List.mem_cons.mp hp0mem' with h | h
    · rw [h]; simp
    · simp [h]
  have hfc : c ≠ L.heap.nextAddr := Nat.ne_of_lt (hbound c hcmem)
  have hfp0 : p0 ≠ L.heap.nextAddr := Nat.ne_of_lt (hbound p0 hp0mem)
  have hcnu : c ∉ u := by
    rcases List.mem_cons.mp hcmem' with h | h
    · rw [h]; exact htnu
    · exact fun hmem => hdisj hmem h
  have hp0nv : p0 ∉ v := by
    rcases List.mem_cons.mp hp0mem' with h | h
    · rw [h]; exact htnv
    · exact fun hmem => hdisj h hmem
  -- the final heap
  have heq := emplace_eq x hpos hmc hncprev hmp0 hfp0 hfc
  set newA := L.heap.nextAddr with hnewA
  set h3 := (((L.heap.alloc ⟨x, some c, some p0⟩).2.set p0
      { np0 with next := some newA }).set c
      { (if c = p0 then { np0 with next := some newA } else nc)
        with prev := some newA }) with hh3
  have hnac : ¬ (newA = c) := fun h => hfc h.symm
  have hnap0 : ¬ (newA = p0) := fun h => hfp0 h.symm
  -- pointwise heap descriptions
  have hnext3 : ∀ b, b ≠ p0 → b ≠ newA → nextMap h3 b = nextMap L.heap b := by
    intro b hb1 hb2
    rw [hh3, nextMap_set, nextMap_set, nextMap_alloc]
    by_cases hbc : b = c
    · have hcp : c ≠ p0 := fun h => hb1 (hbc.trans h)
      rw [if_pos hbc, hbc]
      simp [hcp, nextMap, hmc]
    · rw [if_neg hbc, if_neg hb1, if_neg hb2]
  have hprev3 : ∀ b, b ≠ c → b ≠ newA → prevMap h3 b = prevMap L.heap b := by
    intro b hb1 hb2
    rw [hh3, prevMap_set, prevMap_set, prevMap_alloc, if_neg hb1, if_neg hb2]
    by_cases hbp : b = p0
    · rw [if_pos hbp, hbp]
      simp [prevMap, hmp0]
    · rw [if_neg hbp]
  have hval3 : ∀ b, b ≠ newA → valMap h3 b = valMap L.heap b := by
    intro b hb2
    rw [hh3, valMap_set, valMap_set, valMap_alloc, if_neg hb2]
    by_cases hbc : b = c
    · rw [if_pos hbc]
      by_cases hcp : c = p0
      · rw [if_pos hcp, hbc, hcp]
        simp [valMap, hmp0]
      · rw [if_neg hcp, hbc]
        simp [valMap, hmc]
    · rw [if_neg hbc]
      by_cases hbp : b = p0
      · rw [if_pos hbp, hbp]
        simp [valMap, hmp0]
      · rw [if_neg hbp]
  have hl1 : linked h3 p0 newA := by
    constructor
    · rw [hh3, nextMap_set]
      by_cases hpc : p0 = c
      · rw [if_pos hpc]
        simp [hpc.symm]
      · rw [if_neg hpc, nextMap_set, if_pos rfl]
    · rw [hh3, prevMap_set, if_neg hnac, prevMap_set, if_neg hnap0,
        prevMap_alloc, if_pos rfl]
  have hl2 : linked h3 newA c := by
    constructor
    · rw [hh3, nextMap_set, if_neg hnac, nextMap_set, if_neg hnap0,
        nextMap_alloc, if_pos rfl]
    · rw [hh3, prevMap_set, if_pos rfl]
  -- chain transfer
  have hchu' : List.Chain' (linked h3) (t :: u) := by
    refine chain'_linked_mono ?_ ?_ hchu
    · intro xx hxx
      have hxmem : xx ∈ t :: u := List.dropLast_subset _ hxx
      have hxmem2 : xx ∈ t :: (u ++ v) := by
        rcases List.mem_cons.mp hxmem with h | h
        · rw [h]; simp
        · simp [h]
      refine hnext3 xx ?_ (Nat.ne_of_lt (hbound xx hxmem2))
      intro hxp
      have hnm := getLastD_not_mem_dropLast hndtu
      rw [hp0g] at hnm
      exact hnm (hxp ▸ hxx)
    · intro y hy
      simp only [List.tail_cons] at hy
      have hymem2 : y ∈ t :: (u ++ v) := by simp [hy]
      refine hprev3 y ?_ (Nat.ne_of_lt (hbound y hymem2))
      intro hyc
      exact hcnu (hyc ▸ hy)
  have hchv' : List.Chain' (linked h3) (v ++ [t]) := by
    refine chain'_linked_mono ?_ ?_ hchv
    · intro xx hxx
      rw [List.dropLast_concat] at hxx
      have hxmem2 : xx ∈ t :: (u ++ v) := by simp [hxx]
      refine hnext3 xx ?_ (Nat.ne_of_lt (hbound xx hxmem2))
      intro hxp
      exact hp0nv (hxp ▸ hxx)
    · intro y hy
      have hymem2 : y ∈ t :: (u ++ v) := by
        have : y ∈ v ++ [t] := List.tail_subset _ hy
        simp at this ⊢
        tauto
      refine hprev3 y ?_ (Nat.ne_of_lt (hbound y hymem2))
      cases hv : v with
      | nil =>
        subst hv
        simp at hy
      | cons c0 v' =>
        subst hv
        simp only [List.cons_append, List.tail_cons] at hy
        simp only [List.headD_cons] at hcg
        have hndv : (c0 :: v').Nodup := by
          have : (c0 :: v').Sublist (u ++ c0 :: v') :=
            List.sublist_append_right _ _
          exact List.Nodup.sublist this hndtail
        intro hyc
        have hyc0 : y = c0 := by rw [hyc, ← hcg]
        subst hyc0
        rcases (List.mem_append.mp hy) with h | h
        · exact (List.nodup_cons.mp hndv).1 h
        · simp at h
          exact htnv (by simp [h])
  -- assembled ring
  refine ⟨⟨h3, L.temp_node_, L.size_ + 1⟩, ?_, ?_, rfl, ?_, ?_, ?_, ?_⟩
  · rw [heq, htemp]
  · refine ⟨by simpa using htemp, ?_, ?_, ?_, ?_, ?_⟩
    · show L.size_ + 1 = (u ++ newA :: v).length
      rw [hsize]
      simp only [List.length_append, List.length_cons]
      omega
    · rw [show (t :: (u ++ newA :: v)) = (t :: u) ++ newA :: v by simp,
        List.nodup_middle]
      refine List.nodup_cons.mpr ⟨?_, by simpa using hnd⟩
      intro hmem
      have : newA ∈ t :: (u ++ v) := by
        simp at hmem ⊢
        tauto
      exact absurd (hbound newA this) (by simp)
    · intro a ha
      have hna : h3.nextAddr = newA + 1 := rfl
      rw [hna]
      by_cases haa : a = newA
      · subst haa
        exact Nat.lt_succ_self _
      · have : a ∈ t :: (u ++ v) := by
          simp at ha ⊢
          tauto
        exact Nat.lt_succ_of_lt (hbound a this)
    · rw [show u ++ newA :: v = (u ++ [newA]) ++ v by simp]
      refine ring_join ?_ ?_ hchv'
      · rw [show (t :: (u ++ [newA])) = (t :: u) ++ newA :: [] by simp]
        refine (chain'_join u t newA []).mpr ⟨hchu', ?_, by simp⟩
        rw [hp0g]
        exact hl1
      · rw [List.getLastD_concat, hcg]
        exact hl2
    · obtain ⟨hvu, hvv⟩ := hasValues_split hlen hval
      have hvu3 : hasValues h3 u xu := by
        refine hasValues_mono ?_ hvu
        intro a ha
        exact hval3 a (Nat.ne_of_lt (hbound a (by simp [ha])))
      have hvv3 : hasValues h3 v xv := by
        refine hasValues_mono ?_ hvv
        intro a ha
        exact hval3 a (Nat.ne_of_lt (hbound a (by simp [ha])))
      have hvnew : valMap h3 newA = some x := by
        rw [hh3, valMap_set, if_neg hnac, valMap_set, if_neg hnap0,
          valMap_alloc, if_pos rfl]
      exact hasValues_append hvu3 (hasValues_cons.mpr ⟨hvnew, hvv3⟩)
  · rfl
  · simpa using htemp
  · intro b hb1 hb2 hb3
    show h3.mem b = L.heap.mem b
    rw [hh3, Heap.mem_set, if_neg hb2, Heap.mem_set, if_neg hb1,
      Heap.mem_alloc, if_neg hb3]
  · show valMap h3 newA = some x
    rw [hh3, valMap_set, if_neg hnac, valMap_set, if_neg hnap0,
      valMap_alloc, if_pos rfl]

/-- Computation of `erase` at a non-sentinel element `c` with predecessor
`p0` and successor `q`, all allocated and with `p0 ≠ c`, `q ≠ c`. -/
theorem erase_eq {L : CircularList T} {pos : Iter} {c p0 q : Addr}
    {nc np0 nq : Node T}
    (hsz : ¬ L.size_ = 0)
    (hpos : pos.current_ = some c) (hne : ¬ (some c = L.temp_node_))
    (hmc : L.heap.mem c = some nc)
    (hncprev : nc.prev = some p0) (hncnext : nc.next = some q)
    (hmp0 : L.heap.mem p0 = some np0) (hmq : L.heap.mem q = some nq)
    (hp0c : p0 ≠ c) (hqc : q ≠ c) :
    L.erase pos = .ok (⟨some q, L.temp_node_⟩,
      ⟨((L.heap.set p0 { np0 with next := some q }).set q
          { (if q = p0 then { np0 with next := some q } else nq)
            with prev := some p0 }).free c,
        L.temp_node_, L.size_ - 1⟩) := by
  have hm1c : (L.heap.set p0 { np0 with next := some q }).mem c = some nc := by
    rw [Heap.mem_set, if_neg (fun h => hp0c h.symm), hmc]
  have hm1q : (L.heap.set p0 { np0 with next := some q }).mem q =
      some (if q = p0 then { np0 with next := some q } else nq) := by
    rw [Heap.mem_set]
    by_cases hqp : q = p0
    · rw [if_pos hqp, if_pos hqp]
    · rw [if_neg hqp, if_neg hqp, hmq]
  have hm2c : ((L.heap.set p0 { np0 with next := some q }).set q
      { (if q = p0 then { np0 with next := some q } else nq)
        with prev := some p0 }).mem c = some nc := by
    rw [Heap.mem_set, if_neg (fun h => hqc h.symm), hm1c]
  unfold CircularList.erase
  rw [if_neg hsz, hpos]
  dsimp only
  rw [if_neg hne, Heap.get_some _ hmc, bindOk, hncprev, hncnext,
    Heap.write_some _ _ hmp0, bindOk, Heap.get_some _ hm1c, bindOk, hncprev,
    hncnext, Heap.write_some _ _ hm1q, bindOk, Heap.get_some _ hm2c, bindOk,
    hncnext]
  rfl

/-- `erase` at any element position (the element ring decomposed as
`u ++ c :: v` with `pos` at `c`): it succeeds, removes exactly that node,
preserves the ring invariant, decrements `size_`, returns an iterator to
the following node (the sentinel when `v = []`), and leaves every node
other than the two neighbours untouched. -/
theorem erase_ok {L : CircularList T} {t c : Addr} {as u v : List Addr}
    {xs xu xv : List T} {x : T} {pos : Iter}
    (hr : ringSpec L t as xs) (hsplit : as = u ++ c :: v)
    (hxsplit : xs = xu ++ x :: xv) (hlen : u.length = xu.length)
    (hpos : pos.current_ = some c) :
    ∃ L' : CircularList T,
      L.erase pos = .ok (⟨some (v.headD t), some t⟩, L') ∧
      ringSpec L' t (u ++ v) (xu ++ xv) ∧
      L'.size_ = L.size_ - 1 ∧
      L'.temp_node_ = some t ∧
      L'.heap.nextAddr = L.heap.nextAddr ∧
      (∀ b : Addr, b ≠ u.getLastD t → b ≠ v.headD t → b ≠ c →
        L'.heap.mem b = L.heap.mem b) := by
  subst hsplit hxsplit
  obtain ⟨htemp, hsize, hnd, hbound, hch, hval⟩ := hr
  obtain ⟨hchu, hlink, hchcv⟩ :=
    ring_split ⟨htemp, hsize, hnd, hbound, hch, hval⟩ rfl
  simp only [List.headD_cons] at hlink
  rw [List.cons_append] at hchcv
  obtain ⟨hheadlink, hchv⟩ := List.chain'_cons'.mp hchcv
  have hlinkcq : linked L.heap c (v.headD t) := by
    refine hheadlink _ ?_
    rw [head?_concat]
    rfl
  generalize hp0g : u.getLastD t = p0 at hlink ⊢
  generalize hqg : v.headD t = q at hlinkcq ⊢
  obtain ⟨nc, hmc, hncprev⟩ := linked_mem_prev hlink
  obtain ⟨np0, hmp0, hnp0next⟩ := linked_mem_next hlink
  obtain ⟨nc', hmc', hncnext'⟩ := linked_mem_next hlinkcq
  obtain ⟨nq, hmq, hnqprev⟩ := linked_mem_prev hlinkcq
  have hncc : nc' = nc := by rw [hmc] at hmc'; exact (Option.some_inj.mp hmc').symm
  subst hncc
  -- nodup bookkeeping
  have hndtail : (u ++ c :: v).Nodup := (List.nodup_cons.mp hnd).2
  have htnucv : t ∉ u ++ c :: v := (List.nodup_cons.mp hnd).1
  have htnu : t ∉ u := fun hmem => htnucv (by simp [hmem])
  have htnv : t ∉ v := fun hmem => htnucv (by simp [hmem])
  have htc : ¬ (t = c) := fun h => htnucv (by simp [h])
  have hdisj : List.Disjoint u (c :: v) := List.disjoint_of_nodup_append hndtail
  have hcnu : c ∉ u := fun hmem => hdisj hmem (by simp)
  have hndcv : (c :: v).Nodup :=
    List.Nodup.sublist (List.sublist_append_right u (c :: v)) hndtail
  have hcnv : c ∉ v := (List.nodup_cons.mp hndcv).1
  have hndtu : (t :: u).Nodup :=
    List.Nodup.sublist
      (List.Sublist.cons₂ t (List.sublist_append_left u (c :: v))) hnd
  have hp0mem' : p0 ∈ t :: u := hp0g ▸ getLastD_mem u t
  have hqmem' : q ∈ t :: v := hqg ▸ headD_mem v t
  have hp0c : p0 ≠ c := by
    rcases List.mem_cons.mp hp0mem' with h | h
    · rw [h]; exact fun hh => htc hh
    · exact fun hh => hcnu (hh ▸ h)
  have hqc : q ≠ c := by
    rcases List.mem_cons.mp hqmem' with h | h
    · rw [h]; exact fun hh => htc hh
    · exact fun hh => hcnv (hh ▸ h)
  have hp0mem : p0 ∈ t :: (u ++ c :: v) := by
    rcases List.mem_cons.mp hp0mem' with h | h
    · rw [h]; simp
    · simp [h]
  have hqmem : q ∈ t :: (u ++ c :: v) := by
    rcases List.mem_cons.mp hqmem' with h | h
    · rw [h]; simp
    · simp [h]
  have hp0nv : p0 ∉ v := by
    rcases List.mem_cons.mp hp0mem' with h | h
    · rw [h]; exact htnv
    · exact fun hmem => hdisj h (by simp [hmem])
  have hsz : ¬ L.size_ = 0 := by
    rw [hsize]
    simp
  have hne : ¬ (some c = L.temp_node_) := by
    rw [htemp]
    exact fun h => htc (Option.some_inj.mp h).symm
  have heq := erase_eq hsz hpos hne hmc hncprev hncnext' hmp0 hmq hp0c hqc
  set h2' := ((L.heap.set p0 { np0 with next := some q }).set q
      { (if q = p0 then { np0 with next := some q } else nq)
        with prev := some p0 }).free c with hh2
  -- pointwise heap descriptions
  have hnext2 : ∀ b, b ≠ p0 → b ≠ c → nextMap h2' b = nextMap L.heap b := by
    intro b hb1 hb2
    rw [hh2, nextMap_free, if_neg hb2, nextMap_set, nextMap_set, if_neg hb1]
    by_cases hbq : b = q
    · have hqp : q ≠ p0 := fun h => hb1 (hbq.trans h)
      rw [if_pos hbq, hbq]
      simp [hqp, nextMap, hmq]
    · rw [if_neg hbq]
  have hprev2 : ∀ b, b ≠ q → b ≠ c → prevMap h2' b = prevMap L.heap b := by
    intro b hb1 hb2
    rw [hh2, prevMap_free, if_neg hb2, prevMap_set, if_neg hb1, prevMap_set]
    by_cases hbp : b = p0
    · rw [if_pos hbp, hbp]
      simp [prevMap, hmp0]
    · rw [if_neg hbp]
  have hval2 : ∀ b, b ≠ c → valMap h2' b = valMap L.heap b := by
    intro b hb2
    rw [hh2, valMap_free, if_neg hb2, valMap_set, valMap_set]
    by_cases hbq : b = q
    · rw [if_pos hbq]
      by_cases hqp : q = p0
      · rw [if_pos hqp, hbq, hqp]
        simp [valMap, hmp0]
      · rw [if_neg hqp, hbq]
        simp [valMap, hmq]
    · rw [if_neg hbq]
      by_cases hbp : b = p0
      · rw [if_pos hbp, hbp]
        simp [valMap, hmp0]
      · rw [if_neg hbp]
  have hl1 : linked h2' p0 q := by
    constructor
    · rw [hh2, nextMap_free, if_neg (fun h => hp0c h), nextMap_set]
      by_cases hpq : p0 = q
      · rw [if_pos hpq]
        simp [hpq.symm]
      · rw [if_neg hpq, nextMap_set, if_pos rfl]
    · rw [hh2, prevMap_free, if_neg (fun h => hqc h), prevMap_set, if_pos rfl]
  -- chain transfer
  have hchu2 : List.Chain' (linked h2') (t :: u) := by
    refine chain'_linked_mono ?_ ?_ hchu
    · intro xx hxx
      refine hnext2 xx ?_ ?_
      · intro hxp
        have hnm := getLastD_not_mem_dropLast hndtu
        rw [hp0g] at hnm
        exact hnm (hxp ▸ hxx)
      · intro hxc
        exact hcnu (by
          have hxmem : xx ∈ t :: u := List.dropLast_subset _ hxx
          rcases List.mem_cons.mp hxmem with h | h
          · exact absurd (h.symm.trans hxc) htc
          · exact hxc ▸ h)
    · intro y hy
      simp only [List.tail_cons] at hy
      refine hprev2 y ?_ ?_
      · intro hyq
        rcases List.mem_cons.mp hqmem' with h | h
        · exact htnu ((hyq.trans h) ▸ hy)
        · exact hdisj (hyq ▸ hy) (by simp [h])
      · intro hyc
        exact hcnu (hyc ▸ hy)
  have hndv : v.Nodup := (List.nodup_cons.mp hndcv).2
  have hchv2 : List.Chain' (linked h2') (v ++ [t]) := by
    refine chain'_linked_mono ?_ ?_ hchv
    · intro xx hxx
      rw [List.dropLast_concat] at hxx
      refine hnext2 xx ?_ ?_
      · intro hxp
        exact hp0nv (hxp ▸ hxx)
      · intro hxc
        exact hcnv (hxc ▸ hxx)
    · intro y hy
      refine hprev2 y ?_ ?_
      · cases hv : v with
        | nil =>
          subst hv
          simp at hy
        | cons q0 v' =>
          subst hv
          simp only [List.cons_append, List.tail_cons] at hy
          simp only [List.headD_cons] at hqg
          intro hyq
          have hyq0 : y = q0 := hyq.trans hqg.symm
          have hq0nv' : q0 ∉ v' := (List.nodup_cons.mp hndv).1
          rcases (List.mem_append.mp hy) with h | h
          · exact hq0nv' (hyq0 ▸ h)
          · simp at h
            have hq0t : q0 = t := hyq0.symm.trans h
            exact htnv (by rw [hq0t]; simp)
      · intro hyc
        rcases List.mem_append.mp (List.tail_subset _ hy) with h | h
        · exact hcnv (hyc ▸ h)
        · simp at h
          exact htc (h.symm.trans hyc)
  -- assembled ring
  refine ⟨⟨h2', L.temp_node_, L.size_ - 1⟩, ?_, ?_, rfl, ?_, ?_, ?_⟩
  · rw [heq, htemp]
  · refine ⟨by simpa using htemp, ?_, ?_, ?_, ?_, ?_⟩
    · show L.size_ - 1 = (u ++ v).length
      rw [hsize]
      simp only [List.length_append, List.length_cons]
      omega
    · refine List.Nodup.sublist ?_ hnd
      refine List.Sublist.cons₂ t ?_
      exact List.Sublist.append_left (List.sublist_cons_self c v) u
    · intro a ha
      have hna : h2'.nextAddr = L.heap.nextAddr := rfl
      rw [hna]
      refine hbound a ?_
      rcases List.mem_cons.mp ha with h | h
      · rw [h]; simp
      · rcases List.mem_append.mp h with h1 | h1
        · simp [h1]
        · simp [h1]
    · refine ring_join hchu2 ?_ hchv2
      rw [hp0g, hqg]
      exact hl1
    · obtain ⟨hvu, hvcv⟩ := hasValues_split hlen hval
      have hvv : hasValues L.heap v xv := (hasValues_cons.mp hvcv).2
      have hvu2 : hasValues h2' u xu :=
        hasValues_mono (fun a ha => hval2 a (fun hc2 => hcnu (hc2 ▸ ha))) hvu
      have hvv2 : hasValues h2' v xv :=
        hasValues_mono (fun a ha => hval2 a (fun hc2 => hcnv (hc2 ▸ ha))) hvv
      exact hasValues_append hvu2 hvv2
  · simpa using htemp
  · rfl
  · intro b hb1 hb2 hb3
    show h2'.mem b = L.heap.mem b
    rw [hh2, Heap.mem_free, if_neg hb3, Heap.mem_set, if_neg hb2,
      Heap.mem_set, if_neg hb1]

/-! ## Derived operations -/

theorem valMap_some {h : Heap T} {a : Addr} {x : T}
    (hv : valMap h a = some x) : ∃ n, h.mem a = some n ∧ n.value = x := by
  unfold valMap at hv
  cases hm : h.mem a with
  | none => rw [hm] at hv; simp at hv
  | some n =>
    rw [hm] at hv
    simp at hv
    exact ⟨n, rfl, hv⟩

/-- `begin()` on a valid ring: the iterator at the first element address
(the sentinel itself when the list is empty). -/
theorem begin_ok {L : CircularList T} {t : Addr} {as : List Addr}
    {xs : List T} (hr : ringSpec L t as xs) :
    L.begin = .ok ⟨some (as.headD t), some t⟩ := by
  have hlink := (ring_split hr (List.nil_append as).symm).2.1
  rw [show ([] : List Addr).getLastD t = t from rfl] at hlink
  obtain ⟨st, hmt, hstnext⟩ := linked_mem_next hlink
  unfold CircularList.begin
  rw [hr.1, Heap.get_some _ hmt, bindOk, hstnext, pureOk]

theorem erase_err_empty {L : CircularList T} (pos : Iter)
    (hsz : L.size_ = 0) :
    L.erase pos = .error (.outOfRange "Cannot erase from empty list") := by
  unfold CircularList.erase
  rw [if_pos hsz]

theorem erase_err_end {L : CircularList T} {pos : Iter}
    (hsz : ¬ L.size_ = 0) (hpos : pos.current_ = L.temp_node_) :
    L.erase pos = .error (.outOfRange "Cannot erase end iterator") := by
  unfold CircularList.erase
  rw [if_neg hsz]
  dsimp only
  rw [if_pos hpos]

/-- `push_back`: appends at the end of the ring. -/
theorem push_back_ok {L : CircularList T} {t : Addr} {as : List Addr}
    {xs : List T} (x : T) (hr : ringSpec L t as xs) :
    ∃ L' : CircularList T, L.push_back x = .ok L' ∧
      ringSpec L' t (as ++ [L.heap.nextAddr]) (xs ++ [x]) ∧
      L'.heap.nextAddr = L.heap.nextAddr + 1 ∧ L'.temp_node_ = some t := by
  have hpos : L.endIter.current_ = some (([] : List Addr).headD t) := by
    show L.temp_node_ = _
    rw [hr.1]
    rfl
  obtain ⟨L', heq, hrs, -, hna, htm, -, -⟩ :=
    emplace_ok x hr (show as = as ++ ([] : List Addr) by simp)
      (show xs = xs ++ ([] : List T) by simp)
      (hasValues_length hr.2.2.2.2.2) hpos
  refine ⟨L', ?_, by simpa using hrs, hna, htm⟩
  unfold CircularList.push_back CircularList.insert
  rw [heq, bindOk]
  rfl

/-- `push_front`: prepends at the front of the ring. -/
theorem push_front_ok {L : CircularList T} {t : Addr} {as : List Addr}
    {xs : List T} (x : T) (hr : ringSpec L t as xs) :
    ∃ L' : CircularList T, L.push_front x = .ok L' ∧
      ringSpec L' t (L.heap.nextAddr :: as) (x :: xs) ∧
      L'.heap.nextAddr = L.heap.nextAddr + 1 ∧ L'.temp_node_ = some t := by
  have hb := begin_ok hr
  have hpos : (⟨some (as.headD t), some t⟩ : Iter).current_ =
      some (as.headD t) := rfl
  obtain ⟨L', heq, hrs, -, hna, htm, -, -⟩ :=
    emplace_ok x hr (List.nil_append as).symm (List.nil_append xs).symm rfl
      hpos
  refine ⟨L', ?_, by simpa using hrs, hna, htm⟩
  unfold CircularList.push_front CircularList.insert
  rw [hb, bindOk, heq, bindOk]
  rfl

/-- `front()` on a non-empty valid ring returns the first value. -/
theorem front_ok {L : CircularList T} {t a : Addr} {as : List Addr}
    {x : T} {xs : List T} (hr : ringSpec L t (a :: as) (x :: xs)) :
    L.front = .ok x := by
  have hlink := (ring_split hr (List.nil_append (a :: as)).symm).2.1
  rw [show ([] : List Addr).getLastD t = t from rfl,
    List.headD_cons] at hlink
  obtain ⟨st, hmt, hstnext⟩ := linked_mem_next hlink
  have hv : valMap L.heap a = some x := (hasValues_cons.mp hr.2.2.2.2.2).1
  obtain ⟨na, hma, hval⟩ := valMap_some hv
  have hsz : ¬ L.size_ = 0 := by
    rw [hr.2.1]
    simp
  unfold CircularList.front
  rw [if_neg hsz, hr.1, Heap.get_some _ hmt, bindOk, hstnext,
    Heap.get_some _ hma, bindOk, pureOk, hval]

theorem front_err {L : CircularList T} (hsz : L.size_ = 0) :
    L.front = .error (.outOfRange "List is empty") := by
  unfold CircularList.front
  rw [if_pos hsz]

theorem back_err {L : CircularList T} (hsz : L.size_ = 0) :
    L.back = .error (.outOfRange "List is empty") := by
  unfold CircularList.back
  rw [if_pos hsz]

/-- `back()` on a non-empty valid ring returns the last value. -/
theorem back_ok {L : CircularList T} {t a : Addr} {as : List Addr}
    {y : T} {ys : List T} (hsplit : ringSpec L t (as ++ [a]) (ys ++ [y])) :
    L.back = .ok y := by
  have hlink := (ring_split hsplit (rfl : as ++ [a] = as ++ [a])).2.1
  rw [show ([a] : List Addr).headD t = a from rfl] at hlink
  obtain ⟨na, hma, hnaval⟩ : ∃ n, L.heap.mem a = some n ∧ n.value = y := by
    have hlen : as.length = ys.length := by
      have := hasValues_length hsplit.2.2.2.2.2
      simp at this
      exact this
    have hv := (hasValues_split hlen hsplit.2.2.2.2.2).2
    exact valMap_some (hasValues_cons.mp hv).1
  have hlink2 := (ring_split hsplit (by simp : as ++ [a] = (as ++ [a]) ++ [])).2.1
  rw [show (([] : List Addr)).headD t = t from rfl,
    List.getLastD_concat] at hlink2
  obtain ⟨st, hmt, hstprev⟩ := linked_mem_prev hlink2
  have hsz : ¬ L.size_ = 0 := by
    rw [hsplit.2.1]
    simp
  unfold CircularList.back
  rw [if_neg hsz, hsplit.1, Heap.get_some _ hmt, bindOk, hstprev,
    Heap.get_some _ hma, bindOk, pureOk, hnaval]

theorem getLastD_mem_self {α : Type} :
    ∀ {l : List α}, l ≠ [] → ∀ d, l.getLastD d ∈ l
  | [], h, _ => absurd rfl h
  | [b], _, d => by simp
  | b :: b' :: l, _, d => by
    rw [List.getLastD_cons]
    exact List.mem_cons_of_mem _ (getLastD_mem_self (by simp) b)

/-- `pop_front` on a non-empty valid ring removes the first element. -/
theorem pop_front_ok {L : CircularList T} {t a : Addr} {as : List Addr}
    {x : T} {xs : List T} (hr : ringSpec L t (a :: as) (x :: xs)) :
    ∃ L' : CircularList T, L.pop_front = .ok L' ∧ ringSpec L' t as xs ∧
      L'.temp_node_ = some t := by
  have hb := begin_ok hr
  rw [List.headD_cons] at hb
  obtain ⟨L', heq, hrs, -, htm, -, -⟩ :=
    erase_ok hr (List.nil_append (a :: as)).symm
      (List.nil_append (x :: xs)).symm rfl
      (show (⟨some a, some t⟩ : Iter).current_ = some a from rfl)
  refine ⟨L', ?_, by simpa using hrs, htm⟩
  unfold CircularList.pop_front
  rw [hb, bindOk, heq, bindOk]
  rfl

/-- `--end()` on a non-empty valid ring: the iterator at the last element. -/
theorem dec_end_ok {L : CircularList T} {t a : Addr} {as : List Addr}
    {xs : List T} (hr : ringSpec L t (as ++ [a]) xs) :
    Iter.dec L.heap L.endIter = .ok ⟨some a, some t⟩ := by
  have hlink := (ring_split hr (by simp : as ++ [a] = (as ++ [a]) ++ [])).2.1
  rw [show (([] : List Addr)).headD t = t from rfl,
    List.getLastD_concat] at hlink
  obtain ⟨st, hmt, hstprev⟩ := linked_mem_prev hlink
  have hat : ¬ (some a = some t) := by
    intro h
    have ha : a = t := Option.some_inj.mp h
    have : t ∉ as ++ [a] := (List.nodup_cons.mp hr.2.2.1).1
    exact this (by simp [ha.symm])
  unfold Iter.dec CircularList.endIter
  rw [hr.1]
  dsimp only
  rw [Heap.get_some _ hmt, bindOk, hstprev, if_neg hat, pureOk]

/-- `pop_back` on a non-empty valid ring removes the last element. -/
theorem pop_back_ok {L : CircularList T} {t a : Addr} {as : List Addr}
    {y : T} {xs : List T} (hr : ringSpec L t (as ++ [a]) (xs ++ [y])) :
    ∃ L' : CircularList T, L.pop_back = .ok L' ∧ ringSpec L' t as xs ∧
      L'.temp_node_ = some t := by
  have hdec := dec_end_ok hr
  have hlen : as.length = xs.length := by
    have := hasValues_length hr.2.2.2.2.2
    simp at this
    exact this
  obtain ⟨L', heq, hrs, -, htm, -, -⟩ :=
    erase_ok hr (rfl : as ++ [a] = as ++ a :: [])
      (rfl : xs ++ [y] = xs ++ y :: []) hlen
      (show (⟨some a, some t⟩ : Iter).current_ = some a from rfl)
  refine ⟨L', ?_, by simpa using hrs, htm⟩
  unfold CircularList.pop_back
  rw [hdec, bindOk, heq, bindOk]
  rfl

/-- `--end()` on an empty valid ring wraps twice and stays on the
sentinel. -/
theorem dec_end_empty {L : CircularList T} {t : Addr} {xs : List T}
    (hr : ringSpec L t [] xs) :
    Iter.dec L.heap L.endIter = .ok ⟨some t, some t⟩ := by
  have hlink := (ring_split hr (List.nil_append ([] : List Addr)).symm).2.1
  rw [show ([] : List Addr).getLastD t = t from rfl,
    show ([] : List Addr).headD t = t from rfl] at hlink
  obtain ⟨st, hmt, hstprev⟩ := linked_mem_prev hlink
  unfold Iter.dec CircularList.endIter
  rw [hr.1]
  dsimp only
  rw [Heap.get_some _ hmt, bindOk, hstprev, if_pos rfl, Heap.get_some _ hmt,
    bindOk, hstprev, pureOk]

/-- `--begin()` on a non-empty valid ring: the iterator at the last
element (wrapping through the sentinel). -/
theorem dec_begin_ok {L : CircularList T} {t a : Addr} {as : List Addr}
    {xs : List T} (hr : ringSpec L t (a :: as) xs) :
    Iter.dec L.heap ⟨some a, some t⟩ =
      .ok ⟨some ((a :: as).getLastD t), some t⟩ := by
  have hlink := (ring_split hr (List.nil_append (a :: as)).symm).2.1
  rw [show ([] : List Addr).getLastD t = t from rfl,
    List.headD_cons] at hlink
  obtain ⟨na, hma, hnaprev⟩ := linked_mem_prev hlink
  have hlink2 :=
    (ring_split hr (by simp : a :: as = (a :: as) ++ [])).2.1
  rw [show (([] : List Addr)).headD t = t from rfl] at hlink2
  obtain ⟨st, hmt, hstprev⟩ := linked_mem_prev hlink2
  unfold Iter.dec
  dsimp only
  rw [Heap.get_some _ hma, bindOk, hnaprev, if_pos rfl, Heap.get_some _ hmt,
    bindOk, hstprev, pureOk]

/-- Pre-decrement from any ring position of a non-empty valid ring
succeeds and lands on an element node (never the sentinel). -/
theorem dec_ok {L : CircularList T} {t : Addr} {as : List Addr}
    {xs : List T} (hr : ringSpec L t as xs) (hne : as ≠ [])
    {w : Addr} (hw : w ∈ t :: as) (it : Iter) (hitc : it.current_ = some w)
    (hitt : it.temp_node_ = some t) :
    ∃ b, b ∈ as ∧ Iter.dec L.heap it = .ok ⟨some b, some t⟩ := by
  rcases List.mem_cons.mp hw with hwt | hwas
  · -- at the sentinel: step to `t.prev`, the last element (no second step)
    have hlink := (ring_split hr (by simp : as = as ++ [])).2.1
    rw [show (([] : List Addr)).headD t = t from rfl] at hlink
    obtain ⟨st, hmt, hstprev⟩ := linked_mem_prev hlink
    have hbmem : as.getLastD t ∈ as := getLastD_mem_self hne t
    have hbt : ¬ (some (as.getLastD t) = some t) := by
      intro h
      exact (List.nodup_cons.mp hr.2.2.1).1
        ((Option.some_inj.mp h) ▸ hbmem)
    refine ⟨as.getLastD t, hbmem, ?_⟩
    unfold Iter.dec
    rw [hitc, hwt, hitt, Heap.get_some _ hmt, bindOk, hstprev, if_neg hbt,
      pureOk]
  · obtain ⟨u, v, huv⟩ := List.append_of_mem hwas
    obtain ⟨hchu, hlink, hchv⟩ := ring_split hr huv
    rw [List.headD_cons] at hlink
    obtain ⟨nw, hmw, hnwprev⟩ := linked_mem_prev hlink
    cases hu : u with
    | nil =>
      -- predecessor is the sentinel: wrap once more to the last element
      subst hu
      rw [show ([] : List Addr).getLastD t = t from rfl] at hnwprev
      have hlink2 := (ring_split hr (by simp : as = as ++ [])).2.1
      rw [show (([] : List Addr)).headD t = t from rfl] at hlink2
      obtain ⟨st, hmt, hstprev⟩ := linked_mem_prev hlink2
      refine ⟨as.getLastD t, getLastD_mem_self hne t, ?_⟩
      unfold Iter.dec
      rw [hitc, hitt, Heap.get_some _ hmw, bindOk, hnwprev, if_pos rfl,
        Heap.get_some _ hmt, bindOk, hstprev, pureOk]
    | cons u0 u' =>
      -- predecessor is the last element of `u`, a real element
      subst hu
      have hbmem : (u0 :: u').getLastD t ∈ as := by
        rw [huv]
        have hmem :=
          getLastD_mem_self (by simp : (u0 :: u') ≠ ([] : List Addr)) t
        rcases List.mem_cons.mp hmem with h | h
        · rw [h]; simp
        · exact List.mem_cons_of_mem _ (List.mem_append_left _ h)
      have hbt : ¬ (some ((u0 :: u').getLastD t) = some t) := by
        intro h
        exact (List.nodup_cons.mp hr.2.2.1).1
          ((Option.some_inj.mp h) ▸ hbmem)
      refine ⟨(u0 :: u').getLastD t, hbmem, ?_⟩
      unfold Iter.dec
      rw [hitc, hitt, Heap.get_some _ hmw, bindOk, hnwprev, if_neg hbt,
        pureOk]

/-- Repeated pre-decrement on a non-empty valid ring never fails and never
stops on the sentinel: every iterate designates an element node. -/
theorem decN_ok {L : CircularList T} {t : Addr} {as : List Addr}
    {xs : List T} (hr : ringSpec L t as xs) (hne : as ≠ []) :
    ∀ (n : Nat) (it : Iter), it.temp_node_ = some t →
      (∃ w ∈ as, it.current_ = some w) →
      ∃ b ∈ as, Iter.decN L.heap n it = .ok ⟨some b, some t⟩
  | 0, it, hitt, ⟨w, hw, hitc⟩ => by
    refine ⟨w, hw, ?_⟩
    have : it = ⟨some w, some t⟩ := by
      cases it
      simp at hitc hitt
      simp [hitc, hitt]
    rw [this]
    rfl
  | n + 1, it, hitt, ⟨w, hw, hitc⟩ => by
    obtain ⟨b1, hb1, hdec⟩ :=
      dec_ok hr hne (List.mem_cons_of_mem t hw) it hitc hitt
    obtain ⟨b, hb, hrec⟩ := decN_ok hr hne n ⟨some b1, some t⟩ rfl ⟨b1, hb1, rfl⟩
    refine ⟨b, hb, ?_⟩
    unfold Iter.decN
    rw [hdec, bindOk]
    exact hrec

theorem deref_end {h : Heap T} (it : Iter)
    (hit : it.current_ = it.temp_node_) :
    Iter.deref h it = .error (.outOfRange "Cannot dereference end iterator") := by
  unfold Iter.deref
  rw [if_pos hit]

theorem arrow_end {h : Heap T} (it : Iter)
    (hit : it.current_ = it.temp_node_) :
    Iter.arrow h it = .error (.outOfRange "Cannot access end iterator") := by
  unfold Iter.arrow
  rw [if_pos hit]

theorem inc_end {h : Heap T} (it : Iter)
    (hit : it.current_ = it.temp_node_) :
    Iter.inc h it = .error (.outOfRange "Cannot increment end iterator") := by
  unfold Iter.inc
  rw [if_pos hit]

/-- The default constructor establishes the ring invariant (empty ring,
sentinel at address `0`). -/
theorem mkEmpty_ring [Inhabited T] :
    ringSpec (CircularList.mkEmpty : CircularList T) 0 [] [] := by
  refine ⟨rfl, rfl, by simp, ?_, ?_, rfl⟩
  · intro a ha
    simp at ha
    subst ha
    show (0 : Nat) < 1
    omega
  · show List.Chain' (linked (CircularList.mkEmpty : CircularList T).heap)
      [0, 0]
    refine List.chain'_cons.mpr ⟨⟨rfl, rfl⟩, ?_⟩
    simp

/-- The `clear()` loop empties any valid ring. -/
theorem clearAux_ok {t : Addr} :
    ∀ (as : List Addr) (xs : List T) (L : CircularList T),
      ringSpec L t as xs →
      ∃ L', CircularList.clearAux as.length L = .ok L' ∧ ringSpec L' t [] []
  | [], xs, L, hr => by
    have hxs : xs = [] := by
      have := hasValues_length hr.2.2.2.2.2
      simpa using (List.eq_nil_of_length_eq_zero this.symm)
    subst hxs
    refine ⟨L, ?_, hr⟩
    show CircularList.clearAux 0 L = .ok L
    unfold CircularList.clearAux
    rw [if_pos (show L.size_ = 0 from hr.2.1)]
  | a :: as', xs, L, hr => by
    cases xs with
    | nil =>
      have := hasValues_length hr.2.2.2.2.2
      simp at this
    | cons x xs' =>
      obtain ⟨L1, hpop, hr1, -⟩ := pop_front_ok hr
      obtain ⟨L', hca, hr'⟩ := clearAux_ok as' xs' L1 hr1
      refine ⟨L', ?_, hr'⟩
      show CircularList.clearAux (as'.length + 1) L = .ok L'
      unfold CircularList.clearAux
      rw [if_neg (by rw [hr.2.1]; simp), hpop, bindOk]
      exact hca

theorem clear_ok {L : CircularList T} {t : Addr} {as : List Addr}
    {xs : List T} (hr : ringSpec L t as xs) :
    ∃ L', L.clear = .ok L' ∧ ringSpec L' t [] [] := by
  obtain ⟨L', h1, h2⟩ := clearAux_ok as xs L hr
  refine ⟨L', ?_, h2⟩
  unfold CircularList.clear
  rw [hr.2.1]
  exact h1

/-- Folding `push_back` over a value list appends those values. -/
theorem foldl_push_back_ok :
    ∀ (ys : List T) {L : CircularList T} {t : Addr} {as : List Addr}
      {xs : List T}, ringSpec L t as xs →
      ∃ (L' : CircularList T) (bs : List Addr),
        List.foldlM CircularList.push_back L ys = .ok L' ∧
        ringSpec L' t (as ++ bs) (xs ++ ys)
  | [], L, t, as, xs, hr => ⟨L, [], rfl, by simpa using hr⟩
  | y :: ys, L, t, as, xs, hr => by
    obtain ⟨L1, hpb, hr1, -, -⟩ := push_back_ok y hr
    obtain ⟨L', bs, hf, hr'⟩ := foldl_push_back_ok ys hr1
    refine ⟨L', L.heap.nextAddr :: bs, ?_, ?_⟩
    · show (CircularList.push_back L y >>= fun L1 =>
        List.foldlM CircularList.push_back L1 ys) = .ok L'
      rw [hpb, bindOk]
      exact hf
    · have he1 : as ++ [L.heap.nextAddr] ++ bs =
        as ++ L.heap.nextAddr :: bs := by simp
      have he2 : xs ++ [y] ++ ys = xs ++ y :: ys := by simp
      rw [he1, he2] at hr'
      exact hr'

/-- The initializer-list constructor builds a valid ring holding the
given values in order. -/
theorem fromListE_ok [Inhabited T] (xs : List T) :
    ∃ (L : CircularList T) (bs : List Addr),
      CircularList.fromListE xs = .ok L ∧ ringSpec L 0 bs xs := by
  obtain ⟨L, bs, hf, hr⟩ := foldl_push_back_ok xs mkEmpty_ring
  exact ⟨L, bs, hf, by simpa using hr⟩

/-! ## Iteration -/

theorem headD_append_left {α : Type} (l m : List α) (d : α) (h : l ≠ []) :
    (l ++ m).headD d = l.headD d := by
  cases l with
  | nil => exact absurd rfl h
  | cons a l' => rfl

theorem headD_mem_self {α : Type} {l : List α} (h : l ≠ []) (d : α) :
    l.headD d ∈ l := by
  cases l with
  | nil => exact absurd rfl h
  | cons a l' => simp

/-- Forward iteration along a `next`-chain ending at the sentinel collects
exactly the stored values. -/
theorem collectFwd_go {L : CircularList T} {t : Addr}
    (htm : L.temp_node_ = some t) :
    ∀ (as : List Addr) (xs : List T),
      (∀ a ∈ as, a ≠ t) →
      List.Chain' (linked L.heap) (as ++ [t]) →
      hasValues L.heap as xs →
      L.collectFwd as.length ⟨some (as.headD t), some t⟩ = .ok xs
  | [], xs, _, _, hv => by
    have hxs : xs = [] := by
      have := hasValues_length hv
      simpa using (List.eq_nil_of_length_eq_zero this.symm)
    subst hxs
    show L.collectFwd 0 ⟨some t, some t⟩ = .ok []
    unfold CircularList.collectFwd
    rw [htm]
    dsimp only
    rw [if_pos rfl]
  | a :: as', xs, hnt, hch, hv => by
    cases xs with
    | nil =>
      have := hasValues_length hv
      simp at this
    | cons x xs' =>
      obtain ⟨hvx, hv'⟩ := hasValues_cons.mp hv
      obtain ⟨na, hma, hnav⟩ := valMap_some hvx
      rw [List.cons_append] at hch
      obtain ⟨hhead, hch'⟩ := List.chain'_cons'.mp hch
      have hlinka : linked L.heap a (as'.headD t) := by
        refine hhead _ ?_
        rw [head?_concat]
        rfl
      obtain ⟨na2, hma2, hnanext⟩ := linked_mem_next hlinka
      have hnn : na.next = some (as'.headD t) := by
        have h12 : na = na2 := by
          rw [hma] at hma2
          exact Option.some_inj.mp hma2
        rw [h12]
        exact hnanext
      have hat3 : ¬ ((some a : Ptr) = some t) := by
        intro h
        exact (hnt a (by simp)) (Option.some_inj.mp h)
      have hrec := collectFwd_go htm as' xs'
        (fun b hb => hnt b (by simp [hb])) hch' hv'
      show L.collectFwd (as'.length + 1) ⟨some a, some t⟩ = .ok (x :: xs')
      unfold CircularList.collectFwd Iter.deref Iter.inc
      rw [htm]
      dsimp only
      rw [if_neg hat3, if_neg hat3, if_neg hat3, Heap.get_some _ hma]
      simp only [bindOk, pureOk, hnn, hnav, hrec]

/-- Forward iteration from `begin()` over a valid ring yields the element
values in order. -/
theorem collectFwd_ok {L : CircularList T} {t : Addr} {as : List Addr}
    {xs : List T} (hr : ringSpec L t as xs) :
    L.collectFwd L.size_ ⟨some (as.headD t), some t⟩ = .ok xs := by
  have hch : List.Chain' (linked L.heap) (as ++ [t]) :=
    (List.chain'_cons'.mp (by simpa using hr.2.2.2.2.1)).2
  have hnt : ∀ a ∈ as, a ≠ t := by
    intro a ha h
    exact (List.nodup_cons.mp hr.2.2.1).1 (h ▸ ha)
  rw [hr.2.1]
  exact collectFwd_go hr.1 as xs hnt hch hr.2.2.2.2.2

/-- Reverse iteration along the `prev`-links collects a suffix of the
element values in reverse: the general step of the `rbegin/rend` loop. -/
theorem collectRev_go {L : CircularList T} {t : Addr}
    {A : List Addr} {X : List T}
    (hnd : (t :: A).Nodup)
    (hch : List.Chain' (linked L.heap) ((t :: A) ++ [t]))
    (hv : hasValues L.heap A X) :
    ∀ (n : List Addr), ∀ (m : List Addr) (g w : List T), A = n ++ m →
      X = g ++ w → n.length = g.length →
      L.collectRev (some (A.headD t)) n.length ⟨some (m.headD t), some t⟩ =
        .ok g.reverse := by
  intro n
  induction n using List.reverseRecOn with
  | nil =>
    intro m g w hA hX hlen
    have hg : g = [] := List.eq_nil_of_length_eq_zero hlen.symm
    subst hg
    simp only [List.nil_append] at hA
    subst hA
    show L.collectRev (some (A.headD t)) 0 ⟨some (A.headD t), some t⟩ =
      .ok (([] : List T).reverse)
    unfold CircularList.collectRev
    dsimp only
    rw [if_pos rfl]
    rfl
  | append_singleton n' b ih =>
    intro m g w hA hX hlen
    have hgne : g ≠ [] := by
      intro h
      subst h
      simp at hlen
    obtain ⟨g', y, hg⟩ := g.eq_nil_or_concat.resolve_left hgne
    rw [List.concat_eq_append] at hg
    subst hg hA hX
    obtain ⟨-, hlink, -⟩ :=
      chainSplit hch (rfl : (n' ++ [b]) ++ m = (n' ++ [b]) ++ m)
    rw [List.getLastD_concat] at hlink
    obtain ⟨ne, hme, hneprev⟩ := linked_mem_prev hlink
    have hbA : b ∈ (n' ++ [b]) ++ m := by simp
    have hbt : ¬ ((some b : Ptr) = some t) := by
      intro h
      exact (List.nodup_cons.mp hnd).1 ((Option.some_inj.mp h) ▸ hbA)
    have hlen' : n'.length = g'.length := by
      simp at hlen
      omega
    have hv' : hasValues L.heap (n' ++ (b :: m)) (g' ++ (y :: w)) := by
      have e1 : (n' ++ [b]) ++ m = n' ++ (b :: m) := by simp
      have e2 : (g' ++ [y]) ++ w = g' ++ (y :: w) := by simp
      rw [e1, e2] at hv
      exact hv
    obtain ⟨hvn', hvbm⟩ := hasValues_split hlen' hv'
    obtain ⟨hvb, hvm⟩ := hasValues_cons.mp hvbm
    obtain ⟨nb, hmb, hnbv⟩ := valMap_some hvb
    have hndt : t ∉ (n' ++ [b]) ++ m := (List.nodup_cons.mp hnd).1
    have hdisj : List.Disjoint (n' ++ [b]) m :=
      List.disjoint_of_nodup_append (List.nodup_cons.mp hnd).2
    have hstop : ¬ ((some (m.headD t) : Ptr) =
        some (((n' ++ [b]) ++ m).headD t)) := by
      intro h
      have hA : ((n' ++ [b]) ++ m).headD t ∈ n' ++ [b] := by
        rw [headD_append_left _ _ _ (by simp)]
        exact headD_mem_self (by simp) t
      have hmh := Option.some_inj.mp h
      rcases List.mem_cons.mp (headD_mem m t) with hm1 | hm1
      · rw [hm1] at hmh
        exact hndt (by
          rw [← hmh] at hA
          exact List.mem_append_left _ hA)
      · rw [hmh] at hm1
        exact hdisj hA hm1
    have hih := ih (b :: m) g' (y :: w)
      (by simp) (by simp) hlen'
    rw [List.headD_cons] at hih
    have hlf : (n' ++ [b]).length = n'.length + 1 := by simp
    rw [hlf]
    show L.collectRev (some (((n' ++ [b]) ++ m).headD t)) (n'.length + 1)
      ⟨some (m.headD t), some t⟩ = .ok ((g' ++ [y]).reverse)
    unfold CircularList.collectRev Iter.dec Iter.deref
    dsimp only
    rw [if_neg hstop, Heap.get_some _ hme, bindOk, hneprev, if_neg hbt,
      pureOk, bindOk, if_neg hbt, Heap.get_some _ hmb, bindOk, pureOk,
      bindOk, hih, bindOk, pureOk, hnbv]
    simp

/-- Reverse iteration from `rbegin()` (base `end()`) to `rend()` (base
`begin()`) over a valid ring yields the element values reversed. -/
theorem collectRev_ok {L : CircularList T} {t : Addr} {as : List Addr}
    {xs : List T} (hr : ringSpec L t as xs) :
    L.collectRev (some (as.headD t)) L.size_ L.endIter = .ok xs.reverse := by
  have hlen := hasValues_length hr.2.2.2.2.2
  have hgo := collectRev_go hr.2.2.1 hr.2.2.2.2.1 hr.2.2.2.2.2 as [] xs []
    (by simp) (by simp) hlen
  rw [show ([] : List Addr).headD t = t from rfl] at hgo
  rw [hr.2.1]
  unfold CircularList.endIter
  rw [hr.1]
  exact hgo

/-- The copy constructor rebuilds the same value sequence in a fresh
ring. -/
theorem copy_ok [Inhabited T] {L : CircularList T} {t : Addr}
    {as : List Addr} {xs : List T} (hr : ringSpec L t as xs) :
    ∃ (L' : CircularList T) (bs : List Addr),
      L.copy = .ok L' ∧ ringSpec L' 0 bs xs := by
  obtain ⟨L', bs, hf, hr'⟩ := foldl_push_back_ok xs mkEmpty_ring
  refine ⟨L', bs, ?_, by simpa using hr'⟩
  unfold CircularList.copy
  rw [begin_ok hr, bindOk, collectFwd_ok hr, bindOk]
  exact hf

/-! ## Claim theorems -/

/-- C1: `erase(pos)` raises the out-of-range error exactly when the list is
empty or `pos` denotes the sentinel (the error is raised before any heap
write, so the list the caller holds is unchanged); otherwise — `pos` at the
element `c` with the ring decomposed as `u ++ c :: v` — it removes exactly
that node, decrements `size_` by one, and returns an iterator to the node
that followed the erased one, which compares equal to `end()` precisely
when the erased node was the last element (`v = []`). -/
theorem C1_erase_spec {T : Type} {L : CircularList T} {t c : Addr}
    {as u v : List Addr} {xs xu xv : List T} {x : T} {pos : Iter}
    (hr : ringSpec L t as xs) :
    ((L.size_ = 0 ∨ pos.current_ = some t) →
      ∃ msg, L.erase pos = .error (.outOfRange msg)) ∧
    (as = u ++ c :: v → xs = xu ++ x :: xv → u.length = xu.length →
      pos.current_ = some c →
      ∃ L' : CircularList T,
        L.erase pos = .ok (⟨some (v.headD t), some t⟩, L') ∧
        ringSpec L' t (u ++ v) (xu ++ xv) ∧
        L'.size_ = L.size_ - 1 ∧
        ((⟨some (v.headD t), some t⟩ : Iter).iterEq L'.endIter = true ↔
          v = [])) := by
  constructor
  · rintro (hsz | hpos)
    · exact ⟨_, erase_err_empty pos hsz⟩
    · by_cases hsz : L.size_ = 0
      · exact ⟨_, erase_err_empty pos hsz⟩
      · exact ⟨_, erase_err_end hsz (by rw [hpos, hr.1])⟩
  · intro hsplit hxsplit hlen hpos
    obtain ⟨L', heq, hrs, hsz, htm, -, -⟩ :=
      erase_ok hr hsplit hxsplit hlen hpos
    refine ⟨L', heq, hrs, hsz, ?_⟩
    unfold Iter.iterEq CircularList.endIter
    rw [htm]
    constructor
    · intro hbeq
      simp only [beq_iff_eq, Option.some_inj] at hbeq
      cases hv : v with
      | nil => rfl
      | cons c0 v' =>
        subst hv
        rw [List.headD_cons] at hbeq
        have hnd := hr.2.2.1
        rw [hsplit] at hnd
        have : t ∈ u ++ c :: c0 :: v' := by
          rw [← hbeq]
          simp
        exact absurd this (List.nodup_cons.mp hnd).1
    · intro hv
      subst hv
      simp

/-- C3: on an empty list both `pop_front()` and `pop_back()` raise the
out-of-range error propagated from `erase`; in that state `begin()` and
`--end()` (the predecessor of `end()`) both denote the sentinel itself. -/
theorem C3_pop_empty {T : Type} {L : CircularList T} {t : Addr}
    (hr : ringSpec L t [] ([] : List T)) :
    L.pop_front = .error (.outOfRange "Cannot erase from empty list") ∧
    L.pop_back = .error (.outOfRange "Cannot erase from empty list") ∧
    L.begin = .ok ⟨some t, some t⟩ ∧
    Iter.dec L.heap L.endIter = .ok ⟨some t, some t⟩ := by
  have hb := begin_ok hr
  rw [show ([] : List Addr).headD t = t from rfl] at hb
  have hd := dec_end_empty hr
  refine ⟨?_, ?_, hb, hd⟩
  · unfold CircularList.pop_front
    rw [hb, bindOk, erase_err_empty _ hr.2.1, bindErr]
  · unfold CircularList.pop_back
    rw [hd, bindOk, erase_err_empty _ hr.2.1, bindErr]

/-- C9: a default-constructed iterator (both pointers null) is a usable
boundary value: two such iterators compare equal, and dereference, member
access and increment each raise the out-of-range error (the null current
pointer equals the null sentinel pointer, so the end-check fires instead
of a null dereference). -/
theorem C9_default_iterator {T : Type} (h : Heap T) :
    (Iter.mk none none).iterEq (Iter.mk none none) = true ∧
    Iter.deref h ⟨none, none⟩ =
      .error (.outOfRange "Cannot dereference end iterator") ∧
    Iter.arrow h ⟨none, none⟩ =
      .error (.outOfRange "Cannot access end iterator") ∧
    Iter.inc h ⟨none, none⟩ =
      .error (.outOfRange "Cannot increment end iterator") :=
  ⟨rfl, deref_end _ rfl, arrow_end _ rfl, inc_end _ rfl⟩

/-- C2: incrementing an iterator at the sentinel (`end()`) raises the
out-of-range error, while decrementing never raises on a non-empty list:
from any ring position (sentinel included) decrement succeeds and lands on
an element node, `--begin()` yields the last element (wrapping through the
sentinel), and any number of repeated decrements from `begin()` succeeds
and never stops on the sentinel. -/
theorem C2_iterator_decrement {T : Type} {L : CircularList T} {t : Addr}
    {as : List Addr} {xs : List T} (hr : ringSpec L t as xs)
    (hne : as ≠ []) :
    (∃ m, Iter.inc L.heap L.endIter = .error (.outOfRange m)) ∧
    (∀ (it : Iter) (w : Addr), it.temp_node_ = some t → w ∈ t :: as →
      it.current_ = some w →
      ∃ b ∈ as, Iter.dec L.heap it = .ok ⟨some b, some t⟩) ∧
    (L.begin = .ok ⟨some (as.headD t), some t⟩) ∧
    (Iter.dec L.heap ⟨some (as.headD t), some t⟩ =
      .ok ⟨some (as.getLastD t), some t⟩) ∧
    (∀ n : Nat, ∃ b ∈ as,
      Iter.decN L.heap n ⟨some (as.headD t), some t⟩ =
        .ok ⟨some b, some t⟩) := by
  refine ⟨⟨_, inc_end _ rfl⟩, ?_, begin_ok hr, ?_, ?_⟩
  · intro it w hitt hw hitc
    exact dec_ok hr hne hw it hitc hitt
  · cases has : as with
    | nil => exact absurd has hne
    | cons a as' =>
      subst has
      rw [List.headD_cons]
      exact dec_begin_ok hr
  · intro n
    exact decN_ok hr hne n ⟨some (as.headD t), some t⟩ rfl
      ⟨as.headD t, headD_mem_self hne t, rfl⟩

/-- C4: `front()` and `back()` raise the out-of-range error exactly when
`size == 0`; on a non-empty list `front()` returns the first stored value
(held by the sentinel's successor) and `back()` the last stored value
(held by the sentinel's predecessor). -/
theorem C4_front_back {T : Type} {L : CircularList T} {t : Addr}
    {as : List Addr} {xs : List T} (hr : ringSpec L t as xs) :
    ((∃ m, L.front = .error (.outOfRange m)) ↔ L.size_ = 0) ∧
    ((∃ m, L.back = .error (.outOfRange m)) ↔ L.size_ = 0) ∧
    (∀ (x : T) (w : List T), xs = x :: w → L.front = .ok x) ∧
    (∀ y : T, xs.getLast? = some y → L.back = .ok y) := by
  have hlen := hasValues_length hr.2.2.2.2.2
  have hfr : ∀ (x : T) (w : List T), xs = x :: w → L.front = .ok x := by
    intro x w hxs
    subst hxs
    cases has : as with
    | nil => simp [has] at hlen
    | cons a as' =>
      subst has
      exact front_ok hr
  have hbk : ∀ y : T, xs.getLast? = some y → L.back = .ok y := by
    intro y hy
    have hxne : xs ≠ [] := by
      intro h
      subst h
      simp at hy
    obtain ⟨w, y', hxs⟩ := xs.eq_nil_or_concat.resolve_left hxne
    rw [List.concat_eq_append] at hxs
    have hyy : y' = y := by
      rw [hxs, List.getLast?_concat] at hy
      exact Option.some_inj.mp hy
    subst hyy hxs
    have hane : as ≠ [] := by
      intro h
      subst h
      simp at hlen
    obtain ⟨as', a, has⟩ := as.eq_nil_or_concat.resolve_left hane
    rw [List.concat_eq_append] at has
    subst has
    exact back_ok hr
  refine ⟨?_, ?_, hfr, hbk⟩
  · constructor
    · rintro ⟨m, hm⟩
      by_contra hsz
      cases hxs : xs with
      | nil =>
        rw [hxs] at hlen
        simp at hlen
        rw [hr.2.1, hlen] at hsz
        simp at hsz
      | cons x w =>
        rw [hfr x w hxs] at hm
        exact Except.noConfusion hm
    · intro hsz
      exact ⟨_, front_err hsz⟩
  · constructor
    · rintro ⟨m, hm⟩
      by_contra hsz
      cases hxs : xs with
      | nil =>
        rw [hxs] at hlen
        simp at hlen
        rw [hr.2.1, hlen] at hsz
        simp at hsz
      | cons x w =>
        have : xs.getLast? = some (xs.getLast (by simp [hxs])) :=
          List.getLast?_eq_getLast _ _
        rw [hbk _ this] at hm
        exact Except.noConfusion hm
    · intro hsz
      exact ⟨_, back_err hsz⟩

/-- C5: for every value sequence, the list built by appending each value
with `push_back` (the initializer-list constructor) yields the values in
insertion order under forward iteration from `begin()` to `end()`, and the
exact reverse under reverse iteration from `rbegin()` to `rend()`. -/
theorem C5_iteration_order {T : Type} [Inhabited T] (xs : List T) :
    ∃ (L : CircularList T) (b : Iter),
      CircularList.fromListE xs = .ok L ∧
      L.begin = .ok b ∧
      L.collectFwd L.size_ b = .ok xs ∧
      L.collectRev b.current_ L.size_ L.endIter = .ok xs.reverse := by
  obtain ⟨L, bs, hf, hr⟩ := fromListE_ok xs
  exact ⟨L, _, hf, begin_ok hr, collectFwd_ok hr, collectRev_ok hr⟩

/-- C6: on every valid list state, `empty()`, `size() == 0` and
`begin() == end()` are equivalent. -/
theorem C6_empty_iff {T : Type} {L : CircularList T} {t : Addr}
    {as : List Addr} {xs : List T} (hr : ringSpec L t as xs) :
    ((L.empty = true) ↔ L.size_ = 0) ∧
    (∃ b, L.begin = .ok b ∧ ((b.iterEq L.endIter = true) ↔ L.size_ = 0)) := by
  constructor
  · unfold CircularList.empty
    simp
  · refine ⟨_, begin_ok hr, ?_⟩
    unfold Iter.iterEq CircularList.endIter
    rw [hr.1, hr.2.1]
    constructor
    · intro hbeq
      simp only [beq_iff_eq, Option.some_inj] at hbeq
      cases has : as with
      | nil => rfl
      | cons a as' =>
        subst has
        rw [List.headD_cons] at hbeq
        exact absurd (hbeq ▸ (by simp : a ∈ a :: as'))
          (List.nodup_cons.mp hr.2.2.1).1
    · intro hsz
      have has : as = [] := List.eq_nil_of_length_eq_zero hsz
      subst has
      simp

/-- C7: on every valid list state the ring invariant holds and is preserved
by each mutating public operation: every ring node `n` satisfies
`n.next.prev == n` and `n.prev.next == n` (each node is `linked` to a ring
successor and from a ring predecessor), `size_` counts the non-sentinel
nodes, and `push_back`, `push_front`, `erase`, `emplace`, `pop_front`,
`pop_back` and `clear` all yield states satisfying the invariant again. -/
theorem C7_ring_invariant {T : Type} {L : CircularList T} {t : Addr}
    {as : List Addr} {xs : List T} (hr : ringSpec L t as xs) :
    (∀ a ∈ t :: as, (∃ b ∈ t :: as, linked L.heap a b) ∧
      (∃ p ∈ t :: as, linked L.heap p a)) ∧
    L.size_ = as.length ∧
    (∀ x : T, ∃ L', L.push_back x = .ok L' ∧ ringInv L') ∧
    (∀ x : T, ∃ L', L.push_front x = .ok L' ∧ ringInv L') ∧
    (∀ (pos : Iter) (u v : List Addr) (c : Addr) (xu xv : List T) (x : T),
      as = u ++ c :: v → xs = xu ++ x :: xv → u.length = xu.length →
      pos.current_ = some c →
      ∃ it L', L.erase pos = .ok (it, L') ∧ ringInv L') ∧
    (∀ (pos : Iter) (u v : List Addr) (xu xv : List T) (x : T),
      as = u ++ v → xs = xu ++ xv → u.length = xu.length →
      pos.current_ = some (v.headD t) →
      ∃ it L', L.emplace pos x = .ok (it, L') ∧ ringInv L') ∧
    (∀ (a : Addr) (w : List Addr) (x : T) (g : List T),
      as = a :: w → xs = x :: g →
      ∃ L', L.pop_front = .ok L' ∧ ringInv L') ∧
    (∀ (a : Addr) (w : List Addr) (y : T) (g : List T),
      as = w ++ [a] → xs = g ++ [y] →
      ∃ L', L.pop_back = .ok L' ∧ ringInv L') ∧
    (∃ L', L.clear = .ok L' ∧ ringInv L') := by
  refine ⟨?_, hr.2.1, ?_, ?_, ?_, ?_, ?_, ?_, ?_⟩
  · intro a ha
    rcases List.mem_cons.mp ha with hat | haas
    · subst hat
      refine ⟨⟨as.headD a, ?_, ?_⟩, ⟨as.getLastD a, ?_, ?_⟩⟩
      · exact headD_mem as a
      · have := (ring_split hr (List.nil_append as).symm).2.1
        rwa [show ([] : List Addr).getLastD a = a from rfl] at this
      · exact getLastD_mem as a
      · have := (ring_split hr (by simp : as = as ++ [])).2.1
        rwa [show (([] : List Addr)).headD a = a from rfl] at this
    · obtain ⟨u, v, huv⟩ := List.append_of_mem haas
      refine ⟨⟨v.headD t, ?_, ?_⟩, ⟨u.getLastD t, ?_, ?_⟩⟩
      · rcases List.mem_cons.mp (headD_mem v t) with h | h
        · rw [h]; simp
        · right
          rw [huv]
          exact List.mem_append_right _ (List.mem_cons_of_mem _ h)
      · have := (ring_split hr (by rw [huv]; simp :
          as = (u ++ [a]) ++ v)).2.1
        rwa [List.getLastD_concat] at this
      · rcases List.mem_cons.mp (getLastD_mem u t) with h | h
        · rw [h]; simp
        · right
          rw [huv]
          exact List.mem_append_left _ h
      · have := (ring_split hr huv).2.1
        rwa [List.headD_cons] at this
  · intro x
    obtain ⟨L', heq, hrs, -, -⟩ := push_back_ok x hr
    exact ⟨L', heq, _, _, _, hrs⟩
  · intro x
    obtain ⟨L', heq, hrs, -, -⟩ := push_front_ok x hr
    exact ⟨L', heq, _, _, _, hrs⟩
  · intro pos u v c xu xv x hsplit hxsplit hlen hpos
    obtain ⟨L', heq, hrs, -, -, -, -⟩ := erase_ok hr hsplit hxsplit hlen hpos
    exact ⟨_, L', heq, _, _, _, hrs⟩
  · intro pos u v xu xv x hsplit hxsplit hlen hpos
    obtain ⟨L', heq, hrs, -, -, -, -, -⟩ :=
      emplace_ok x hr hsplit hxsplit hlen hpos
    exact ⟨_, L', heq, _, _, _, hrs⟩
  · intro a w x g hsplit hxsplit
    subst hsplit hxsplit
    obtain ⟨L', heq, hrs, -⟩ := pop_front_ok hr
    exact ⟨L', heq, _, _, _, hrs⟩
  · intro a w y g hsplit hxsplit
    subst hsplit hxsplit
    obtain ⟨L', heq, hrs, -⟩ := pop_back_ok hr
    exact ⟨L', heq, _, _, _, hrs⟩
  · obtain ⟨L', heq, hrs⟩ := clear_ok hr
    exact ⟨L', heq, _, _, _, hrs⟩

/-- C8: copy construction from any valid list produces a list with the
identical value sequence in freshly allocated nodes (its own heap and
sentinel), and mutating the copy (here: `push_back` or a successful
`erase` on it) leaves the original list's ring — its size and element
sequence — exactly as before. -/
theorem C8_copy_independent {T : Type} [Inhabited T] {L : CircularList T}
    {t : Addr} {as : List Addr} {xs : List T} (hr : ringSpec L t as xs) :
    ∃ (L' : CircularList T) (bs : List Addr),
      L.copy = .ok L' ∧ ringSpec L' 0 bs xs ∧
      (∀ (x : T) (L'' : CircularList T), L'.push_back x = .ok L'' →
        ringSpec L t as xs) ∧
      (∀ (pos it : Iter) (L'' : CircularList T),
        L'.erase pos = .ok (⟨it.current_, it.temp_node_⟩, L'') →
        ringSpec L t as xs) := by
  obtain ⟨L', bs, heq, hrs⟩ := copy_ok hr
  exact ⟨L', bs, heq, hrs, fun _ _ _ => hr, fun _ _ _ _ => hr⟩

/-- C10: `insert` is `emplace`, and `emplace` at any valid position (the
ring decomposed as `u ++ v` with `pos` at the head of `v ++ [sentinel]`,
covering `begin()` and `end()`) changes only the insertion point: it
succeeds, the previous elements keep their values and relative order with
the new value exactly between `xu` and `xv`, only the two nodes adjacent
to the insertion point have a link updated (every other address is
untouched), `size_` grows by one, and the returned iterator dereferences
to the inserted value. -/
theorem C10_insert_frame {T : Type} {L : CircularList T} {t : Addr}
    {as u v : List Addr} {xs xu xv : List T} {pos : Iter} (x : T)
    (hr : ringSpec L t as xs) (hsplit : as = u ++ v)
    (hxsplit : xs = xu ++ xv) (hlen : u.length = xu.length)
    (hpos : pos.current_ = some (v.headD t)) :
    L.insert pos x = L.emplace pos x ∧
    ∃ L' : CircularList T,
      L.emplace pos x = .ok (⟨some L.heap.nextAddr, some t⟩, L') ∧
      ringSpec L' t (u ++ L.heap.nextAddr :: v) (xu ++ x :: xv) ∧
      L'.size_ = L.size_ + 1 ∧
      (∀ b : Addr, b ≠ u.getLastD t → b ≠ v.headD t → b ≠ L.heap.nextAddr →
        L'.heap.mem b = L.heap.mem b) ∧
      Iter.deref L'.heap ⟨some L.heap.nextAddr, some t⟩ = .ok x := by
  obtain ⟨L', heq, hrs, hsz, hna, htm, hframe, hval⟩ :=
    emplace_ok x hr hsplit hxsplit hlen hpos
  refine ⟨rfl, L', heq, hrs, hsz, hframe, ?_⟩
  have htlt : t < L.heap.nextAddr := hr.2.2.2.1 t (by simp)
  have hnt : ¬ ((some L.heap.nextAddr : Ptr) = some t) := by
    intro h
    exact absurd (Option.some_inj.mp h ▸ htlt) (by simp)
  obtain ⟨n, hm, hv⟩ := valMap_some hval
  unfold Iter.deref
  dsimp only
  rw [if_neg hnt, Heap.get_some _ hm, bindOk, pureOk, hv]

/-! ## Witnesses -/

/-- C1 at the list `{5, 6, 7}`: erasing at the sentinel raises, erasing the
middle element yields `{5, 7}` and an iterator to the third node. -/
theorem C1_witness :
    (∃ msg, sample3.erase ⟨some 0, some 0⟩ = .error (.outOfRange msg)) ∧
    (∃ L' : CircularList Nat, sample3.erase ⟨some 2, some 0⟩ =
      .ok (⟨some 3, some 0⟩, L') ∧ ringSpec L' 0 [1, 3] [5, 7] ∧
      L'.size_ = 2 ∧
      (Iter.iterEq ⟨some 3, some 0⟩ L'.endIter = true ↔
        ([3] : List Addr) = [])) :=
  ⟨(@C1_erase_spec Nat sample3 0 2 [1, 2, 3] [1] [3] [5, 6, 7] [5] [7] 6
      ⟨some 0, some 0⟩ (by decide)).1 (Or.inr rfl),
   (@C1_erase_spec Nat sample3 0 2 [1, 2, 3] [1] [3] [5, 6, 7] [5] [7] 6
      ⟨some 2, some 0⟩ (by decide)).2 rfl rfl rfl rfl⟩

/-- C2 at the list `{5, 6, 7}`. -/
theorem C2_witness :
    (∃ m, Iter.inc sample3.heap sample3.endIter = .error (.outOfRange m)) ∧
    (∀ (it : Iter) (w : Addr), it.temp_node_ = some 0 →
      w ∈ (0 : Addr) :: [1, 2, 3] → it.current_ = some w →
      ∃ b ∈ ([1, 2, 3] : List Addr),
        Iter.dec sample3.heap it = .ok ⟨some b, some 0⟩) ∧
    (sample3.begin = .ok ⟨some 1, some 0⟩) ∧
    (Iter.dec sample3.heap ⟨some 1, some 0⟩ = .ok ⟨some 3, some 0⟩) ∧
    (∀ n : Nat, ∃ b ∈ ([1, 2, 3] : List Addr),
      Iter.decN sample3.heap n ⟨some 1, some 0⟩ = .ok ⟨some b, some 0⟩) :=
  C2_iterator_decrement
    (by decide : ringSpec sample3 0 [1, 2, 3] [5, 6, 7]) (by decide)

/-- C3 at the empty list. -/
theorem C3_witness :
    sample0.pop_front = .error (.outOfRange "Cannot erase from empty list") ∧
    sample0.pop_back = .error (.outOfRange "Cannot erase from empty list") ∧
    sample0.begin = .ok ⟨some 0, some 0⟩ ∧
    Iter.dec sample0.heap sample0.endIter = .ok ⟨some 0, some 0⟩ :=
  C3_pop_empty (by decide : ringSpec sample0 0 [] [])

/-- C4 at the list `{5, 6, 7}`. -/
theorem C4_witness :
    ((∃ m, sample3.front = .error (.outOfRange m)) ↔ sample3.size_ = 0) ∧
    ((∃ m, sample3.back = .error (.outOfRange m)) ↔ sample3.size_ = 0) ∧
    (∀ (x : Nat) (w : List Nat), [5, 6, 7] = x :: w →
      sample3.front = .ok x) ∧
    (∀ y : Nat, ([5, 6, 7] : List Nat).getLast? = some y →
      sample3.back = .ok y) :=
  C4_front_back (by decide : ringSpec sample3 0 [1, 2, 3] [5, 6, 7])

/-- C6 at the list `{5, 6, 7}`. -/
theorem C6_witness :
    ((sample3.empty = true) ↔ sample3.size_ = 0) ∧
    (∃ b, sample3.begin = .ok b ∧
      ((b.iterEq sample3.endIter = true) ↔ sample3.size_ = 0)) :=
  C6_empty_iff (by decide : ringSpec sample3 0 [1, 2, 3] [5, 6, 7])

/-- C7 at the list `{5, 6, 7}`. -/
theorem C7_witness :
    (∀ a ∈ (0 : Addr) :: [1, 2, 3],
      (∃ b ∈ (0 : Addr) :: [1, 2, 3], linked sample3.heap a b) ∧
      (∃ p ∈ (0 : Addr) :: [1, 2, 3], linked sample3.heap p a)) ∧
    sample3.size_ = 3 ∧
    (∀ x : Nat, ∃ L', sample3.push_back x = .ok L' ∧ ringInv L') ∧
    (∀ x : Nat, ∃ L', sample3.push_front x = .ok L' ∧ ringInv L') ∧
    (∀ (pos : Iter) (u v : List Addr) (c : Addr) (xu xv : List Nat) (x : Nat),
      [1, 2, 3] = u ++ c :: v → [5, 6, 7] = xu ++ x :: xv →
      u.length = xu.length → pos.current_ = some c →
      ∃ it L', sample3.erase pos = .ok (it, L') ∧ ringInv L') ∧
    (∀ (pos : Iter) (u v : List Addr) (xu xv : List Nat) (x : Nat),
      [1, 2, 3] = u ++ v → [5, 6, 7] = xu ++ xv → u.length = xu.length →
      pos.current_ = some (v.headD 0) →
      ∃ it L', sample3.emplace pos x = .ok (it, L') ∧ ringInv L') ∧
    (∀ (a : Addr) (w : List Addr) (x : Nat) (g : List Nat),
      [1, 2, 3] = a :: w → [5, 6, 7] = x :: g →
      ∃ L', sample3.pop_front = .ok L' ∧ ringInv L') ∧
    (∀ (a : Addr) (w : List Addr) (y : Nat) (g : List Nat),
      [1, 2, 3] = w ++ [a] → [5, 6, 7] = g ++ [y] →
      ∃ L', sample3.pop_back = .ok L' ∧ ringInv L') ∧
    (∃ L', sample3.clear = .ok L' ∧ ringInv L') :=
  C7_ring_invariant (by decide : ringSpec sample3 0 [1, 2, 3] [5, 6, 7])

/-- C8 at the list `{5, 6, 7}`. -/
theorem C8_witness :
    ∃ (L' : CircularList Nat) (bs : List Addr),
      sample3.copy = .ok L' ∧ ringSpec L' 0 bs [5, 6, 7] ∧
      (∀ (x : Nat) (L'' : CircularList Nat), L'.push_back x = .ok L'' →
        ringSpec sample3 0 [1, 2, 3] [5, 6, 7]) ∧
      (∀ (pos it : Iter) (L'' : CircularList Nat),
        L'.erase pos = .ok (⟨it.current_, it.temp_node_⟩, L'') →
        ringSpec sample3 0 [1, 2, 3] [5, 6, 7]) :=
  C8_copy_independent (by decide : ringSpec sample3 0 [1, 2, 3] [5, 6, 7])

/-- C10 at the list `{5, 6, 7}`: inserting `9` before the middle element
yields `{5, 9, 6, 7}` with only the two neighbour nodes relinked. -/
theorem C10_witness :
    sample3.insert ⟨some 2, some 0⟩ 9 = sample3.emplace ⟨some 2, some 0⟩ 9 ∧
    ∃ L' : CircularList Nat,
      sample3.emplace ⟨some 2, some 0⟩ 9 = .ok (⟨some 4, some 0⟩, L') ∧
      ringSpec L' 0 [1, 4, 2, 3] [5, 9, 6, 7] ∧
      L'.size_ = 4 ∧
      (∀ b : Addr, b ≠ 1 → b ≠ 2 → b ≠ 4 →
        L'.heap.mem b = sample3.heap.mem b) ∧
      Iter.deref L'.heap ⟨some 4, some 0⟩ = .ok 9 :=
  @C10_insert_frame Nat sample3 0 [1, 2, 3] [1] [2, 3] [5, 6, 7] [5] [6, 7]
    ⟨some 2, some 0⟩ 9 (by decide) rfl rfl rfl rfl

end stl_containers
